import Mathlib

/-!
Agenda: the meeting registry of `entity/meeting.go`.

A shallow embedding of the meeting registry (`Meetings`) and of its operations
`Host`, `Cancel`, `CancelAll`, `Add`, `Remove`, `RemoveAll`, and of the snapshot
codec (`Serialize`, `DeserializeMeeting`), followed by the properties of the
registry proved over that embedding.

Modelling conventions.

* A Go `map[string]V` is an association list `Map V` with at most one entry
  per key; the order of the list is the order in which a `range` loop visits
  the entries.
* A `*Meeting` is an index into `Meetings.heap`, the store of `Meeting`
  objects.  The primary index and the relation buckets hold such indices, so
  that the two indices share one object per meeting, as in the Go code, and a
  change of `m.Participants` is seen through every reference to `m`.
* A `*User` is represented by its `Username`; `time.Time` is an integer
  instant.
* The meeting passed to `Host` is a fresh object, not shared with a meeting
  hosted before; it enters the heap when `Host` succeeds.
* In a registry built by the operations every stored pointer leads to an
  object of the heap (`Consistent.prim`, `Consistent.rel`).  The definitions
  are total all the same: a pointer that leads nowhere is treated as `nil`.
-/

namespace Agenda

/-! ## Error kinds (`cmd/err.go`) -/

/-- The error kinds of `cmd/err.go`, in the order of their numeric values. -/
inductive Err where
  | OK
  | TimeConflict
  | NoSuchMeeting
  | NoSuchUser
  | DuplicateMeeting
  | DuplicateUser
  | InvalidTime
  | NoSuchFile
  | InconsistentState
  | AuthenticateFail
  | WrongLoginState
  | NotEnoughPrivilege
  deriving DecidableEq, Repr

/-! ## Go maps as association lists -/

/-- A Go `map[string]V`. -/
abbrev Map (V : Type) := List (String × V)

/-- The map read `m[k]`; `none` stands for the zero value `nil`. -/
def Map.get {V : Type} : Map V → String → Option V
  | [], _ => none
  | (k1, v) :: rest, k => if k1 = k then some v else Map.get rest k

/-- The builtin `delete(m, k)`. -/
def Map.delete {V : Type} (m : Map V) (k : String) : Map V :=
  m.filter (fun e => decide (e.1 ≠ k))

/-- The map write `m[k] = v`. -/
def Map.set {V : Type} (m : Map V) (k : String) (v : V) : Map V :=
  (k, v) :: Map.delete m k

/-- The keys of a map, in iteration order. -/
def Map.keys {V : Type} (m : Map V) : List String := m.map Prod.fst

/-! ## Collaborators that are not part of the two source files -/

/-- Modelled from the spec: `util.Overlapped` is missing from the sources; the
spec defines it as "true iff the two half-open intervals `[start, end)`
intersect, i.e. `startA < endB && startB < endA`". -/
def Overlapped (startA endA startB endB : Int) : Bool :=
  decide (startA < endB) && decide (startB < endA)

/-- Modelled from the spec: the type `Users` is missing from the sources; the
spec describes it as "a set-like container of user identities keyed by
username; supports lookup, add, remove, size".  A value is the list of the
usernames it holds. -/
abbrev Users := List String

/-- Modelled from the spec: `Users.Lookup(name) != nil`. -/
def Users.Lookup (us : Users) (name : String) : Bool := decide (name ∈ us)

/-- Modelled from the spec: `Users.Add(u)`, insertion under the key `u.Username`. -/
def Users.Add (us : Users) (u : String) : Users :=
  if u ∈ us then us else us ++ [u]

/-- Modelled from the spec: `Users.Remove(u)`, deletion of the key `u.Username`. -/
def Users.Remove (us : Users) (u : String) : Users :=
  us.filter (fun x => decide (x ≠ u))

/-- Modelled from the spec: `Users.Size()`. -/
def Users.Size (us : Users) : Nat := us.length

/-! ## Data model -/

/-- The struct `Meeting`. -/
structure Meeting where
  Title : String
  Host : String
  Participants : Users
  Start : Int
  End : Int
  deriving DecidableEq, Repr

/-- The struct `Meetings`: the primary index `meetings`, the relation index
`relation`, and the store `heap` of the `Meeting` objects they point to. -/
structure Meetings where
  heap : List Meeting
  meetings : Map Nat
  relation : Map (Map Nat)
  deriving DecidableEq, Repr

/-- `NewMeetings`: the empty registry. -/
def NewMeetings : Meetings := { heap := [], meetings := [], relation := [] }

namespace Meetings

/-- The object a `*Meeting` points to. -/
def deref (ms : Meetings) (p : Nat) : Option Meeting := ms.heap[p]?

/-- `Lookup`: the `*Meeting` stored under `title`, `none` for `nil`. -/
def Lookup (ms : Meetings) (title : String) : Option Nat := ms.meetings.get title

/-- `Has`: `ms.meetings[title] != nil`. -/
def Has (ms : Meetings) (title : String) : Bool := (ms.meetings.get title).isSome

/-- `Related`: the relation bucket of `user`, the empty map when there is none. -/
def Related (ms : Meetings) (user : String) : Map Nat :=
  (ms.relation.get user).getD []

/-- `addRelatedMeeting(u, m)`, where `p` is the pointer `m` and `title` is
`m.Title`. -/
def addRelatedMeeting (ms : Meetings) (u : String) (p : Nat) (title : String) : Meetings :=
  match ms.relation.get u with
  | none => { ms with relation := ms.relation.set u [(title, p)] }
  | some bucket => { ms with relation := ms.relation.set u (bucket.set title p) }

/-- The statement `delete(ms.relation[u], title)`; deleting from a `nil`
bucket does nothing. -/
def deleteRelated (ms : Meetings) (u : String) (title : String) : Meetings :=
  match ms.relation.get u with
  | none => ms
  | some bucket => { ms with relation := ms.relation.set u (bucket.delete title) }

/-- The method `host`, where `p` points to the object `m`. -/
def host (ms : Meetings) (p : Nat) (m : Meeting) : Meetings :=
  let ms1 := { ms with meetings := ms.meetings.set m.Title p }
  let ms2 := m.Participants.foldl (fun acc u => acc.addRelatedMeeting u p m.Title) ms1
  ms2.addRelatedMeeting m.Host p m.Title

/-- The conflict scan of `Host`: some participant of `m` has a related meeting
whose range overlaps the range of `m`. -/
def hostConflict (ms : Meetings) (m : Meeting) : Bool :=
  m.Participants.any (fun u =>
    (ms.Related u).any (fun e =>
      match ms.deref e.2 with
      | some um => Overlapped m.Start m.End um.Start um.End
      | none => false))

/-- `Host`.  The caller's meeting `m` is a fresh object: it is stored at the
end of the heap when the checks have passed. -/
def Host (ms : Meetings) (m : Meeting) : Err × Meetings :=
  if ¬ (m.End > m.Start) then (Err.InvalidTime, ms)
  else if ms.Has m.Title then (Err.DuplicateMeeting, ms)
  else if ms.hostConflict m then (Err.TimeConflict, ms)
  else (Err.OK, host { ms with heap := ms.heap ++ [m] } ms.heap.length m)

/-- The method `cancel`, applied to the object `m`. -/
def cancel (ms : Meetings) (m : Meeting) : Meetings :=
  let ms1 := m.Participants.foldl (fun acc u => acc.deleteRelated u m.Title) ms
  { ms1 with meetings := ms1.meetings.delete m.Title }

/-- `Cancel`. -/
def Cancel (ms : Meetings) (title : String) : Err × Meetings :=
  match ms.meetings.get title with
  | none => (Err.NoSuchMeeting, ms)
  | some p =>
    match ms.deref p with
    | none => (Err.NoSuchMeeting, ms)
    | some m => (Err.OK, ms.cancel m)

/-- One round of the loop of `CancelAll` for the bucket key `title`: an entry
deleted earlier in the loop is not visited. -/
def cancelAllStep (host : String) (ms : Meetings) (title : String) : Meetings :=
  match (ms.Related host).get title with
  | none => ms
  | some p =>
    match ms.deref p with
    | none => ms
    | some m => if m.Host = host then ms.cancel m else ms

/-- `CancelAll`: a `range` over the bucket `Related(host)`. -/
def CancelAll (ms : Meetings) (host : String) : Meetings :=
  (ms.Related host).keys.foldl (cancelAllStep host) ms

/-- The method `remove`, where `p` points to the meeting. -/
def remove (ms : Meetings) (p : Nat) (user : String) : Meetings :=
  match ms.deref p with
  | none => ms
  | some m =>
    let m1 := { m with Participants := Users.Remove m.Participants user }
    let ms1 := { ms with heap := ms.heap.set p m1 }
    let ms2 := if user ≠ m1.Host ∨ Users.Size m1.Participants = 0
      then ms1.deleteRelated user m1.Title else ms1
    if Users.Size m1.Participants = 0
      then { ms2 with meetings := ms2.meetings.delete m1.Title } else ms2

/-- `Remove`. -/
def Remove (ms : Meetings) (title : String) (user : String) : Err × Meetings :=
  match ms.meetings.get title with
  | none => (Err.NoSuchMeeting, ms)
  | some p =>
    match ms.deref p with
    | none => (Err.NoSuchMeeting, ms)
    | some m =>
      if Users.Lookup m.Participants user = false then (Err.NoSuchUser, ms)
      else (Err.OK, ms.remove p user)

/-- `RemoveAll`: `CancelAll`, then `remove` on a snapshot of the bucket. -/
def RemoveAll (ms : Meetings) (user : String) : Err × Meetings :=
  let ms1 := ms.CancelAll user
  let related := (ms1.Related user).map Prod.snd
  (Err.OK, related.foldl (fun acc p => acc.remove p user) ms1)

/-- The conflict scan of `Add`: some meeting related to `user` overlaps `m`. -/
def addConflict (ms : Meetings) (user : String) (m : Meeting) : Bool :=
  (ms.Related user).any (fun e =>
    match ms.deref e.2 with
    | some um => Overlapped um.Start um.End m.Start m.End
    | none => false)

/-- `Add`. -/
def Add (ms : Meetings) (title : String) (user : String) : Err × Meetings :=
  match ms.meetings.get title with
  | none => (Err.NoSuchMeeting, ms)
  | some p =>
    match ms.deref p with
    | none => (Err.NoSuchMeeting, ms)
    | some m =>
      if Users.Lookup m.Participants user then (Err.DuplicateUser, ms)
      else if ms.addConflict user m then (Err.TimeConflict, ms)
      else
        let m1 := { m with Participants := Users.Add m.Participants user }
        let ms1 := { ms with heap := ms.heap.set p m1 }
        (Err.OK, ms1.addRelatedMeeting user p m1.Title)

end Meetings

/-! ## Call sequences -/

/-- A call of one of the six mutating operations of the registry. -/
inductive Call where
  | Host (m : Meeting)
  | Cancel (title : String)
  | CancelAll (host : String)
  | Add (title user : String)
  | Remove (title user : String)
  | RemoveAll (user : String)
  deriving DecidableEq, Repr

/-- The registry after a call; the result code is dropped. -/
def applyCall (ms : Meetings) : Call → Meetings
  | .Host m => (ms.Host m).2
  | .Cancel t => (ms.Cancel t).2
  | .CancelAll h => ms.CancelAll h
  | .Add t u => (ms.Add t u).2
  | .Remove t u => (ms.Remove t u).2
  | .RemoveAll u => (ms.RemoveAll u).2

/-- The registry after a sequence of calls. -/
def runCalls (ms : Meetings) (cs : List Call) : Meetings := cs.foldl applyCall ms

/-- The registries reachable from the empty registry by a finite sequence of
`Host`, `Cancel`, `CancelAll`, `Add`, `Remove` and `RemoveAll` calls. -/
def Reachable (ms : Meetings) : Prop := ∃ cs : List Call, runCalls NewMeetings cs = ms

/-! ## Predicates on registries -/

/-- The pointer stored in the relation index for `user` under `title`. -/
def Meetings.relGet (ms : Meetings) (user title : String) : Option Nat :=
  Map.get (ms.Related user) title

/-- The consistency that every call keeps: pointers are valid and are filed
under the title of their object, buckets have one entry per key, stored
ranges are proper, and the primary index is covered by the relation index. -/
structure Consistent (ms : Meetings) : Prop where
  prim : ∀ t p, Map.get ms.meetings t = some p → ∃ m, ms.deref p = some m ∧ m.Title = t
  rel : ∀ u t p, ms.relGet u t = some p → ∃ m, ms.deref p = some m ∧ m.Title = t
  nodup : ∀ u, (Map.keys (ms.Related u)).Nodup
  range : ∀ p m, ms.deref p = some m → m.Start < m.End
  cover : ∀ t p m, Map.get ms.meetings t = some p → ms.deref p = some m →
    ms.relGet m.Host t = some p ∧ ∀ u ∈ m.Participants, ms.relGet u t = some p

/-- No user is double-booked: the meetings filed under two different titles in
one relation bucket never overlap. -/
def NoDoubleBooking (ms : Meetings) : Prop :=
  ∀ (u t1 t2 : String) (p1 p2 : Nat) (a b : Meeting),
    t1 ≠ t2 → ms.relGet u t1 = some p1 → ms.relGet u t2 = some p2 →
    ms.deref p1 = some a → ms.deref p2 = some b →
    Overlapped a.Start a.End b.Start b.End = false

/-- A time conflict for hosting `m`, in the words of the specification: some
participant of `m` has a related meeting whose range overlaps the range of `m`. -/
def HostConflictExists (ms : Meetings) (m : Meeting) : Prop :=
  ∃ u ∈ m.Participants, ∃ e ∈ ms.Related u, ∃ um : Meeting,
    ms.deref e.2 = some um ∧ Overlapped m.Start m.End um.Start um.End = true

/-- A time conflict for adding `user` to the meeting `m`, in the words of the
specification: some meeting related to `user` overlaps the range of `m`. -/
def AddConflictExists (ms : Meetings) (user : String) (m : Meeting) : Prop :=
  ∃ e ∈ ms.Related user, ∃ um : Meeting,
    ms.deref e.2 = some um ∧ Overlapped um.Start um.End m.Start m.End = true


/-- A call that, when it is a `Host` call, passes a meeting whose host is one
of its participants. -/
def Call.hostListed : Call → Bool
  | .Host m => decide (m.Host ∈ m.Participants)
  | _ => true

/-- The registries reachable from the empty registry by calls in which every
hosted meeting lists its host among its participants. -/
def ReachableHostListed (ms : Meetings) : Prop :=
  ∃ cs : List Call, (∀ c ∈ cs, c.hostListed = true) ∧ runCalls NewMeetings cs = ms

/-! ## Snapshot codec -/

/-- The struct `meetingSerialized`. -/
structure meetingSerialized where
  Title : String
  Host : String
  Participants : List String
  Start : String
  End : String
  deriving DecidableEq, Repr

/-- Modelled from the spec: `NewUsers`, the empty user set. -/
def NewUsers : Users := []

/-- Modelled from the spec: the `*User` that `users.Lookup(name)` returns, `none`
for `nil`; a user of the directory is filed under its own username. -/
def Users.LookupUser (us : Users) (name : String) : Option String :=
  if name ∈ us then some name else none

/-- `toSerialized`.  `YMDFormat` stands for `util.YMDFormat`, which is not
among the sources. -/
def toSerialized (YMDFormat : Int → String) (m : Meeting) : meetingSerialized :=
  { Title := m.Title
    Host := m.Host
    Participants := m.Participants
    Start := YMDFormat m.Start
    End := YMDFormat m.End }

/-- `Serialize`: one record per entry of the primary index.  The JSON layer
is taken to carry every record unchanged, so the stream is the list of the
records. -/
def Meetings.Serialize (YMDFormat : Int → String) (ms : Meetings) : List meetingSerialized :=
  ms.meetings.filterMap (fun e => (ms.deref e.2).map (toSerialized YMDFormat))

/-- The participant loop of `fromSerialized`.  The result is `none` when a
name is not in the directory: the Go code then holds a `nil` user, which
`Meeting` does not represent. -/
def resolveParticipants (users : Users) : List String → Users → Option Users
  | [], parts => some parts
  | p :: rest, parts =>
    match Users.LookupUser users p with
    | none => none
    | some u => resolveParticipants users rest (Users.Add parts u)

/-- `fromSerialized`.  `YMDParse` stands for the first result of
`util.YMDParse`, which is not among the sources; the source drops the error.
The result is `none` when the host or a participant is not in the
directory. -/
def fromSerialized (YMDParse : String → Int) (m : meetingSerialized) (users : Users) :
    Option Meeting :=
  let start := YMDParse m.Start
  let stop := YMDParse m.End
  match Users.LookupUser users m.Host with
  | none => none
  | some host =>
    match resolveParticipants users m.Participants NewUsers with
    | none => none
    | some parts =>
      some { Host := host, Start := start, End := stop, Participants := parts, Title := m.Title }

/-- The loop of `DeserializeMeeting` over the decoded records: every record
is turned into a new object and filed by `host`, without validation. -/
def deserializeLoop (YMDParse : String → Int) (users : Users) :
    List meetingSerialized → Meetings → Option Meetings
  | [], ms => some ms
  | r :: rest, ms =>
    match fromSerialized YMDParse r users with
    | none => none
    | some m =>
      deserializeLoop YMDParse users rest
        (({ ms with heap := ms.heap ++ [m] } : Meetings).host ms.heap.length m)

/-- `DeserializeMeeting` on a stream that decodes to `records`; `some ms`
stands for the result `(ms, nil)`. -/
def DeserializeMeeting (YMDParse : String → Int) (records : List meetingSerialized)
    (users : Users) : Option Meetings :=
  deserializeLoop YMDParse users records NewMeetings

/-- The primary index is well formed: one entry per title, and every entry
leads to an object of the heap that carries the title it is filed under.
This holds in every reachable registry and in every registry returned by
`DeserializeMeeting`. -/
structure PrimaryWellFormed (ms : Meetings) : Prop where
  nodup : (Map.keys ms.meetings).Nodup
  prim : ∀ t p, Map.get ms.meetings t = some p → ∃ m, ms.deref p = some m ∧ m.Title = t

/-! ## Lemmas on maps -/

theorem Map.get_delete {V : Type} (m : Map V) (k k2 : String) :
    Map.get (Map.delete m k) k2 = if k2 = k then none else Map.get m k2 := by
  induction m with
  | nil => simp [Map.delete, Map.get]
  | cons e rest ih =>
    obtain ⟨k1, v⟩ := e
    unfold Map.delete at ih ⊢
    by_cases h1 : k1 = k
    · subst h1
      simp only [List.filter, ne_eq, not_true_eq_false, decide_False]
      rw [ih]
      by_cases h2 : k2 = k1
      · simp [h2]
      · have h3 : ¬ k1 = k2 := fun h => h2 h.symm
        simp [h2, h3, Map.get]
    · simp only [List.filter, ne_eq, h1, not_false_eq_true, decide_True, Map.get]
      rw [ih]
      by_cases h2 : k2 = k
      · have h3 : ¬ k1 = k2 := fun h => h1 (h.trans h2)
        simp [h2, h3, h1]
      · simp [h2]

theorem Map.get_set {V : Type} (m : Map V) (k k2 : String) (v : V) :
    Map.get (Map.set m k v) k2 = if k2 = k then some v else Map.get m k2 := by
  unfold Map.set
  by_cases h : k2 = k
  · subst h
    simp [Map.get]
  · have h3 : ¬ k = k2 := fun e => h e.symm
    simp [Map.get, h, h3, Map.get_delete]

theorem Map.get_eq_some_of_mem {V : Type} (m : Map V) (k : String) (v : V)
    (hn : (Map.keys m).Nodup) (h : (k, v) ∈ m) : Map.get m k = some v := by
  induction m with
  | nil => simp at h
  | cons e rest ih =>
    obtain ⟨k1, v1⟩ := e
    simp only [Map.keys, List.map_cons, List.nodup_cons, List.mem_map, Prod.exists,
      exists_and_right, exists_eq_right, not_exists] at hn
    rcases List.mem_cons.mp h with h1 | h1
    · cases h1
      simp [Map.get]
    · have hne : ¬ k1 = k := by
        intro e
        subst e
        exact hn.1 v h1
      simp only [Map.get, hne, if_false]
      exact ih hn.2 h1

theorem Map.mem_of_get_eq_some {V : Type} (m : Map V) (k : String) (v : V)
    (h : Map.get m k = some v) : (k, v) ∈ m := by
  induction m with
  | nil => simp [Map.get] at h
  | cons e rest ih =>
    obtain ⟨k1, v1⟩ := e
    by_cases h1 : k1 = k
    · simp only [Map.get, h1, if_true, Option.some.injEq] at h
      subst h1; subst h
      exact List.mem_cons_self _ _
    · simp only [Map.get, h1, if_false] at h
      exact List.mem_cons_of_mem _ (ih h)

theorem Map.mem_keys_iff {V : Type} (m : Map V) (k : String) :
    k ∈ Map.keys m ↔ ∃ v, Map.get m k = some v := by
  induction m with
  | nil => simp [Map.keys, Map.get]
  | cons e rest ih =>
    obtain ⟨k1, v1⟩ := e
    by_cases h1 : k1 = k
    · simp [Map.keys, Map.get, h1]
    · have h2 : ¬ k = k1 := fun e => h1 e.symm
      simp only [Map.keys, List.map_cons, List.mem_cons, h2, false_or, Map.get, h1, if_false]
      exact ih

theorem Map.keys_delete_nodup {V : Type} (m : Map V) (k : String)
    (hn : (Map.keys m).Nodup) : (Map.keys (Map.delete m k)).Nodup := by
  unfold Map.keys Map.delete
  exact (List.Sublist.map _ (List.filter_sublist m)).nodup hn

theorem Map.not_mem_keys_delete {V : Type} (m : Map V) (k : String) :
    k ∉ Map.keys (Map.delete m k) := by
  rw [Map.mem_keys_iff]
  simp [Map.get_delete]

theorem Map.keys_set_nodup {V : Type} (m : Map V) (k : String) (v : V)
    (hn : (Map.keys m).Nodup) : (Map.keys (Map.set m k v)).Nodup := by
  have h1 := Map.keys_delete_nodup m k hn
  have h2 := Map.not_mem_keys_delete m k
  unfold Map.set
  simp only [Map.keys, List.map_cons, List.nodup_cons]
  exact ⟨h2, h1⟩

/-! ## The index updates, entry by entry -/

namespace Meetings

theorem Related_addRelatedMeeting (ms : Meetings) (u u2 : String) (p : Nat) (t : String) :
    (ms.addRelatedMeeting u p t).Related u2 =
      if u2 = u then Map.set (ms.Related u) t p else ms.Related u2 := by
  unfold addRelatedMeeting Related
  cases h : Map.get ms.relation u with
  | none =>
    by_cases h2 : u2 = u
    · subst h2
      simp only [Map.get_set, if_true, Option.getD_some, Option.getD_none]
      rfl
    · simp [Map.get_set, h2]
  | some b =>
    by_cases h2 : u2 = u
    · subst h2; simp [Map.get_set]
    · simp [Map.get_set, h2]

theorem Related_deleteRelated (ms : Meetings) (u u2 : String) (t : String) :
    (ms.deleteRelated u t).Related u2 =
      if u2 = u then Map.delete (ms.Related u) t else ms.Related u2 := by
  unfold deleteRelated Related
  cases h : Map.get ms.relation u with
  | none =>
    by_cases h2 : u2 = u
    · subst h2; simp [h, Map.delete]
    · simp [h2]
  | some b =>
    by_cases h2 : u2 = u
    · subst h2; simp [Map.get_set]
    · simp [Map.get_set, h2]

@[simp]
theorem heap_addRelatedMeeting (ms : Meetings) (u : String) (p : Nat) (t : String) :
    (ms.addRelatedMeeting u p t).heap = ms.heap := by
  unfold addRelatedMeeting; cases Map.get ms.relation u <;> rfl

@[simp]
theorem meetings_addRelatedMeeting (ms : Meetings) (u : String) (p : Nat) (t : String) :
    (ms.addRelatedMeeting u p t).meetings = ms.meetings := by
  unfold addRelatedMeeting; cases Map.get ms.relation u <;> rfl

@[simp]
theorem heap_deleteRelated (ms : Meetings) (u t : String) :
    (ms.deleteRelated u t).heap = ms.heap := by
  unfold deleteRelated; cases Map.get ms.relation u <;> rfl

@[simp]
theorem meetings_deleteRelated (ms : Meetings) (u t : String) :
    (ms.deleteRelated u t).meetings = ms.meetings := by
  unfold deleteRelated; cases Map.get ms.relation u <;> rfl

theorem relGet_addRelatedMeeting (ms : Meetings) (u u2 : String) (p : Nat) (t t2 : String) :
    (ms.addRelatedMeeting u p t).relGet u2 t2 =
      if u2 = u ∧ t2 = t then some p else ms.relGet u2 t2 := by
  unfold relGet
  rw [Related_addRelatedMeeting]
  by_cases h : u2 = u
  · subst h
    by_cases h2 : t2 = t <;> simp [Map.get_set, h2]
  · simp [h]

theorem relGet_deleteRelated (ms : Meetings) (u u2 : String) (t t2 : String) :
    (ms.deleteRelated u t).relGet u2 t2 =
      if u2 = u ∧ t2 = t then none else ms.relGet u2 t2 := by
  unfold relGet
  rw [Related_deleteRelated]
  by_cases h : u2 = u
  · subst h
    by_cases h2 : t2 = t <;> simp [Map.get_delete, h2]
  · simp [h]

theorem nodup_addRelatedMeeting (ms : Meetings) (u : String) (p : Nat) (t : String)
    (h : ∀ v, (Map.keys (ms.Related v)).Nodup) (v : String) :
    (Map.keys ((ms.addRelatedMeeting u p t).Related v)).Nodup := by
  rw [Related_addRelatedMeeting]
  by_cases h2 : v = u
  · simp only [h2, if_true]; exact Map.keys_set_nodup _ _ _ (h u)
  · simp only [h2, if_false]; exact h v

theorem nodup_deleteRelated (ms : Meetings) (u t : String)
    (h : ∀ v, (Map.keys (ms.Related v)).Nodup) (v : String) :
    (Map.keys ((ms.deleteRelated u t).Related v)).Nodup := by
  rw [Related_deleteRelated]
  by_cases h2 : v = u
  · simp only [h2, if_true]; exact Map.keys_delete_nodup _ _ (h u)
  · simp only [h2, if_false]; exact h v

/-! ### The loops of `host` and of `cancel` -/

theorem foldl_add_heap (parts : List String) (ms : Meetings) (p : Nat) (t : String) :
    (parts.foldl (fun acc u => acc.addRelatedMeeting u p t) ms).heap = ms.heap := by
  induction parts generalizing ms with
  | nil => rfl
  | cons a rest ih => simp [List.foldl, ih]

theorem foldl_add_meetings (parts : List String) (ms : Meetings) (p : Nat) (t : String) :
    (parts.foldl (fun acc u => acc.addRelatedMeeting u p t) ms).meetings = ms.meetings := by
  induction parts generalizing ms with
  | nil => rfl
  | cons a rest ih => simp [List.foldl, ih]

theorem foldl_add_relGet (parts : List String) (ms : Meetings) (p : Nat) (t u2 t2 : String) :
    (parts.foldl (fun acc u => acc.addRelatedMeeting u p t) ms).relGet u2 t2 =
      if u2 ∈ parts ∧ t2 = t then some p else ms.relGet u2 t2 := by
  induction parts generalizing ms with
  | nil => simp
  | cons a rest ih =>
    simp only [List.foldl, ih, relGet_addRelatedMeeting, List.mem_cons]
    by_cases h1 : t2 = t <;> by_cases h2 : u2 = a <;> by_cases h3 : u2 ∈ rest <;> simp [h1, h2, h3]

theorem foldl_add_nodup (parts : List String) (ms : Meetings) (p : Nat) (t : String)
    (h : ∀ v, (Map.keys (ms.Related v)).Nodup) (v : String) :
    (Map.keys ((parts.foldl (fun acc u => acc.addRelatedMeeting u p t) ms).Related v)).Nodup := by
  induction parts generalizing ms with
  | nil => exact h v
  | cons a rest ih => exact ih _ (nodup_addRelatedMeeting ms a p t h)

theorem foldl_delete_heap (parts : List String) (ms : Meetings) (t : String) :
    (parts.foldl (fun acc u => acc.deleteRelated u t) ms).heap = ms.heap := by
  induction parts generalizing ms with
  | nil => rfl
  | cons a rest ih => simp [List.foldl, ih]

theorem foldl_delete_meetings (parts : List String) (ms : Meetings) (t : String) :
    (parts.foldl (fun acc u => acc.deleteRelated u t) ms).meetings = ms.meetings := by
  induction parts generalizing ms with
  | nil => rfl
  | cons a rest ih => simp [List.foldl, ih]

theorem foldl_delete_relGet (parts : List String) (ms : Meetings) (t u2 t2 : String) :
    (parts.foldl (fun acc u => acc.deleteRelated u t) ms).relGet u2 t2 =
      if u2 ∈ parts ∧ t2 = t then none else ms.relGet u2 t2 := by
  induction parts generalizing ms with
  | nil => simp
  | cons a rest ih =>
    simp only [List.foldl, ih, relGet_deleteRelated, List.mem_cons]
    by_cases h1 : t2 = t <;> by_cases h2 : u2 = a <;> by_cases h3 : u2 ∈ rest <;> simp [h1, h2, h3]

theorem foldl_delete_nodup (parts : List String) (ms : Meetings) (t : String)
    (h : ∀ v, (Map.keys (ms.Related v)).Nodup) (v : String) :
    (Map.keys ((parts.foldl (fun acc u => acc.deleteRelated u t) ms).Related v)).Nodup := by
  induction parts generalizing ms with
  | nil => exact h v
  | cons a rest ih => exact ih _ (nodup_deleteRelated ms a t h)

/-! ### `host` and `cancel` -/

@[simp]
theorem heap_host (ms : Meetings) (p : Nat) (m : Meeting) :
    (ms.host p m).heap = ms.heap := by
  simp [host, foldl_add_heap]

theorem meetings_host (ms : Meetings) (p : Nat) (m : Meeting) :
    (ms.host p m).meetings = Map.set ms.meetings m.Title p := by
  simp [host, foldl_add_meetings]

theorem relGet_host (ms : Meetings) (p : Nat) (m : Meeting) (u t : String) :
    (ms.host p m).relGet u t =
      if (u = m.Host ∨ u ∈ m.Participants) ∧ t = m.Title then some p else ms.relGet u t := by
  simp only [host, relGet_addRelatedMeeting, foldl_add_relGet]
  have e : ({ ms with meetings := Map.set ms.meetings m.Title p } : Meetings).relGet u t
      = ms.relGet u t := rfl
  rw [e]
  by_cases h1 : t = m.Title <;> by_cases h2 : u = m.Host <;>
    by_cases h3 : u ∈ m.Participants <;> simp [h1, h2, h3]

theorem nodup_host (ms : Meetings) (p : Nat) (m : Meeting)
    (h : ∀ v, (Map.keys (ms.Related v)).Nodup) (v : String) :
    (Map.keys ((ms.host p m).Related v)).Nodup := by
  have h1 : ∀ w, (Map.keys (({ ms with meetings := Map.set ms.meetings m.Title p } :
      Meetings).Related w)).Nodup := h
  unfold host
  exact nodup_addRelatedMeeting _ _ _ _ (foldl_add_nodup _ _ _ _ h1) v

@[simp]
theorem heap_cancel (ms : Meetings) (m : Meeting) :
    (ms.cancel m).heap = ms.heap := by
  simp [cancel, foldl_delete_heap]

theorem meetings_cancel (ms : Meetings) (m : Meeting) :
    (ms.cancel m).meetings = Map.delete ms.meetings m.Title := by
  simp [cancel, foldl_delete_meetings]

theorem relGet_cancel (ms : Meetings) (m : Meeting) (u t : String) :
    (ms.cancel m).relGet u t =
      if u ∈ m.Participants ∧ t = m.Title then none else ms.relGet u t := by
  have e : ∀ x : Meetings, ({ x with meetings := Map.delete x.meetings m.Title } : Meetings).relGet u t
      = x.relGet u t := fun _ => rfl
  simp only [cancel, e, foldl_delete_relGet]

theorem nodup_cancel (ms : Meetings) (m : Meeting)
    (h : ∀ v, (Map.keys (ms.Related v)).Nodup) (v : String) :
    (Map.keys ((ms.cancel m).Related v)).Nodup := by
  unfold cancel
  exact foldl_delete_nodup _ _ _ h v

end Meetings

/-! ### `remove` -/

namespace Meetings

theorem deref_lt (ms : Meetings) (p : Nat) (m : Meeting) (h : ms.deref p = some m) :
    p < ms.heap.length := by
  unfold deref at h
  by_contra hc
  rw [List.getElem?_eq_none (Nat.le_of_not_lt hc)] at h
  cases h

theorem heap_remove (ms : Meetings) (p : Nat) (user : String) (m : Meeting)
    (h : ms.deref p = some m) :
    (ms.remove p user).heap =
      ms.heap.set p { m with Participants := Users.Remove m.Participants user } := by
  unfold remove
  simp only [h]
  split_ifs <;> simp

theorem deref_remove (ms : Meetings) (p : Nat) (user : String) (m : Meeting)
    (h : ms.deref p = some m) (q : Nat) :
    (ms.remove p user).deref q =
      if q = p then some { m with Participants := Users.Remove m.Participants user }
      else ms.deref q := by
  have hlt := deref_lt ms p m h
  unfold deref
  rw [heap_remove ms p user m h, List.getElem?_set]
  by_cases hq : q = p
  · subst hq; simp [hlt]
  · have hq2 : ¬ p = q := fun e => hq e.symm
    simp [hq, hq2]

theorem meetings_remove (ms : Meetings) (p : Nat) (user : String) (m : Meeting)
    (h : ms.deref p = some m) :
    (ms.remove p user).meetings =
      if Users.Remove m.Participants user = [] then Map.delete ms.meetings m.Title
      else ms.meetings := by
  unfold remove
  simp only [h, Users.Size, List.length_eq_zero]
  split_ifs <;> simp

theorem Related_of_relation_eq (x y : Meetings) (h : x.relation = y.relation) (u : String) :
    x.Related u = y.Related u := by
  unfold Related; rw [h]

theorem relation_deleteRelated_heap (ms : Meetings) (hp : List Meeting) (u t : String) :
    (({ ms with heap := hp } : Meetings).deleteRelated u t).relation =
      (ms.deleteRelated u t).relation := by
  unfold deleteRelated
  cases h : Map.get ms.relation u <;> simp [h]

theorem relation_remove (ms : Meetings) (p : Nat) (user : String) (m : Meeting)
    (h : ms.deref p = some m) :
    (ms.remove p user).relation =
      if user ≠ m.Host ∨ Users.Remove m.Participants user = []
      then (ms.deleteRelated user m.Title).relation else ms.relation := by
  unfold remove
  simp only [h, Users.Size, List.length_eq_zero]
  split_ifs <;> first | rfl | exact relation_deleteRelated_heap _ _ _ _

theorem Related_remove (ms : Meetings) (p : Nat) (user : String) (m : Meeting)
    (h : ms.deref p = some m) (u : String) :
    (ms.remove p user).Related u =
      if u = user ∧ (user ≠ m.Host ∨ Users.Remove m.Participants user = [])
      then Map.delete (ms.Related user) m.Title else ms.Related u := by
  have hr := relation_remove ms p user m h
  by_cases hc : user ≠ m.Host ∨ Users.Remove m.Participants user = []
  · rw [if_pos hc] at hr
    rw [Related_of_relation_eq _ _ hr, Related_deleteRelated]
    by_cases h3 : u = user <;> simp [h3, hc]
  · rw [if_neg hc] at hr
    rw [Related_of_relation_eq _ _ hr]
    simp [hc]

theorem relGet_remove (ms : Meetings) (p : Nat) (user : String) (m : Meeting)
    (h : ms.deref p = some m) (u t : String) :
    (ms.remove p user).relGet u t =
      if u = user ∧ t = m.Title ∧ (user ≠ m.Host ∨ Users.Remove m.Participants user = [])
      then none else ms.relGet u t := by
  unfold relGet
  rw [Related_remove ms p user m h]
  by_cases h3 : u = user
  · subst h3
    by_cases h1 : u ≠ m.Host ∨ Users.Remove m.Participants u = []
    · by_cases h4 : t = m.Title <;> simp [h1, h4, Map.get_delete]
    · simp [h1]
  · simp [h3]

theorem nodup_remove (ms : Meetings) (p : Nat) (user : String)
    (hn : ∀ v, (Map.keys (ms.Related v)).Nodup) (v : String) :
    (Map.keys ((ms.remove p user).Related v)).Nodup := by
  cases h : ms.deref p with
  | none => unfold remove; simp only [h]; exact hn v
  | some m =>
    rw [Related_remove ms p user m h]
    split_ifs
    · exact Map.keys_delete_nodup _ _ (hn user)
    · exact hn v

theorem mem_Users_Remove (us : Users) (u x : String) :
    x ∈ Users.Remove us u ↔ x ∈ us ∧ x ≠ u := by
  simp [Users.Remove, List.mem_filter]

theorem mem_Users_Add (us : Users) (u x : String) :
    x ∈ Users.Add us u ↔ x ∈ us ∨ x = u := by
  unfold Users.Add
  split_ifs with h
  · constructor
    · intro hx; exact Or.inl hx
    · rintro (hx | hx)
      · exact hx
      · subst hx; exact h
  · simp

end Meetings

/-! ## Every call keeps the registry consistent -/

namespace Meetings

@[simp]
theorem deref_cancel (ms : Meetings) (m : Meeting) (q : Nat) :
    (ms.cancel m).deref q = ms.deref q := by
  unfold deref; rw [heap_cancel]

@[simp]
theorem deref_host (ms : Meetings) (p : Nat) (m : Meeting) (q : Nat) :
    (ms.host p m).deref q = ms.deref q := by
  unfold deref; rw [heap_host]

theorem deref_alloc (ms : Meetings) (m : Meeting) (q : Nat) :
    ({ ms with heap := ms.heap ++ [m] } : Meetings).deref q =
      if q = ms.heap.length then some m else ms.deref q := by
  unfold deref
  by_cases h2 : q = ms.heap.length
  · subst h2; simp
  · by_cases h1 : q < ms.heap.length
    · simp [h2, List.getElem?_append_left h1]
    · have h3 : ms.heap.length ≤ q := Nat.le_of_not_lt h1
      have h5 : (ms.heap ++ [m]).length ≤ q := by
        rw [List.length_append, List.length_singleton]; omega
      simp only [h2, if_false]
      rw [List.getElem?_eq_none h5, List.getElem?_eq_none h3]

theorem deref_length (ms : Meetings) : ms.deref ms.heap.length = none := by
  unfold deref
  exact List.getElem?_eq_none (Nat.le_refl _)

theorem deref_set (ms : Meetings) (p : Nat) (m m1 : Meeting) (h : ms.deref p = some m)
    (q : Nat) :
    ({ ms with heap := ms.heap.set p m1 } : Meetings).deref q =
      if q = p then some m1 else ms.deref q := by
  have hlt := deref_lt ms p m h
  unfold deref
  simp only [List.getElem?_set]
  by_cases hq : q = p
  · subst hq; simp [hlt]
  · have hq2 : ¬ p = q := fun e => hq e.symm
    simp [hq, hq2]

end Meetings

theorem consistent_NewMeetings : Consistent NewMeetings where
  prim := by intro t p h; simp [NewMeetings, Map.get] at h
  rel := by intro u t p h; simp [NewMeetings, Meetings.relGet, Meetings.Related, Map.get] at h
  nodup := by intro u; simp [NewMeetings, Meetings.Related, Map.get, Map.keys]
  range := by intro p m h; simp [NewMeetings, Meetings.deref] at h
  cover := by intro t p m h; simp [NewMeetings, Map.get] at h

theorem consistent_cancel (ms : Meetings) (m : Meeting) (h : Consistent ms) :
    Consistent (ms.cancel m) where
  prim := by
    intro t p hg
    rw [Meetings.meetings_cancel, Map.get_delete] at hg
    split_ifs at hg
    simpa using h.prim t p hg
  rel := by
    intro u t p hg
    rw [Meetings.relGet_cancel] at hg
    split_ifs at hg
    simpa using h.rel u t p hg
  nodup := Meetings.nodup_cancel ms m h.nodup
  range := by
    intro p x hd
    rw [Meetings.deref_cancel] at hd
    exact h.range p x hd
  cover := by
    intro t p x hg hd
    rw [Meetings.meetings_cancel, Map.get_delete] at hg
    rw [Meetings.deref_cancel] at hd
    split_ifs at hg with ht
    have hc := h.cover t p x hg hd
    simp only [Meetings.relGet_cancel, ht, and_false, if_false]
    exact hc

theorem consistent_host (ms : Meetings) (m : Meeting) (h : Consistent ms)
    (hr : m.Start < m.End) :
    Consistent (({ ms with heap := ms.heap ++ [m] } : Meetings).host ms.heap.length m) where
  prim := by
    intro t p hg
    rw [Meetings.meetings_host, Map.get_set] at hg
    simp only [Meetings.deref_host, Meetings.deref_alloc]
    split_ifs at hg with ht
    · cases hg
      exact ⟨m, by simp, ht.symm⟩
    · obtain ⟨x, hx, hxt⟩ := h.prim t p hg
      have hlt := Meetings.deref_lt ms p x hx
      exact ⟨x, by simp [Nat.ne_of_lt hlt, hx], hxt⟩
  rel := by
    intro u t p hg
    rw [Meetings.relGet_host] at hg
    simp only [Meetings.deref_host, Meetings.deref_alloc]
    split_ifs at hg with ht
    · cases hg
      exact ⟨m, by simp, ht.2.symm⟩
    · obtain ⟨x, hx, hxt⟩ := h.rel u t p hg
      have hlt := Meetings.deref_lt ms p x hx
      exact ⟨x, by simp [Nat.ne_of_lt hlt, hx], hxt⟩
  nodup := Meetings.nodup_host _ _ _ h.nodup
  range := by
    intro p x hd
    simp only [Meetings.deref_host, Meetings.deref_alloc] at hd
    split_ifs at hd
    · cases hd; exact hr
    · exact h.range p x hd
  cover := by
    intro t p x hg hd
    rw [Meetings.meetings_host, Map.get_set] at hg
    simp only [Meetings.deref_host, Meetings.deref_alloc] at hd
    simp only [Meetings.relGet_host]
    have e : ∀ u t, ({ ms with heap := ms.heap ++ [m] } : Meetings).relGet u t = ms.relGet u t :=
      fun _ _ => rfl
    simp only [e]
    split_ifs at hg with ht
    · cases hg
      simp only [if_true] at hd
      cases hd
      subst ht
      constructor
      · simp
      · intro u hu; simp [hu]
    · have hp : p ≠ ms.heap.length := by
        intro e2
        obtain ⟨y, hy, _⟩ := h.prim t p hg
        rw [e2, Meetings.deref_length] at hy
        cases hy
      simp only [hp, if_false] at hd
      have hc := h.cover t p x hg hd
      simp only [ht, and_false, if_false]
      exact hc

theorem consistent_remove (ms : Meetings) (p : Nat) (user : String) (m : Meeting)
    (h : Consistent ms) (hd : ms.deref p = some m) (hrel : ms.relGet user m.Title = some p) :
    Consistent (ms.remove p user) where
  prim := by
    intro t q hg
    rw [Meetings.meetings_remove ms p user m hd] at hg
    have hg2 : Map.get ms.meetings t = some q := by
      split_ifs at hg
      · rw [Map.get_delete] at hg
        split_ifs at hg
        exact hg
      · exact hg
    obtain ⟨x, hx, hxt⟩ := h.prim t q hg2
    rw [Meetings.deref_remove ms p user m hd]
    by_cases hq : q = p
    · subst hq
      rw [hd] at hx; cases hx
      exact ⟨{ m with Participants := Users.Remove m.Participants user }, by simp, hxt⟩
    · exact ⟨x, by simp [hq, hx], hxt⟩
  rel := by
    intro u t q hg
    rw [Meetings.relGet_remove ms p user m hd] at hg
    split_ifs at hg
    obtain ⟨x, hx, hxt⟩ := h.rel u t q hg
    rw [Meetings.deref_remove ms p user m hd]
    by_cases hq : q = p
    · subst hq
      rw [hd] at hx; cases hx
      exact ⟨{ m with Participants := Users.Remove m.Participants user }, by simp, hxt⟩
    · exact ⟨x, by simp [hq, hx], hxt⟩
  nodup := Meetings.nodup_remove ms p user h.nodup
  range := by
    intro q x hx
    rw [Meetings.deref_remove ms p user m hd] at hx
    split_ifs at hx
    · cases hx; exact h.range p m hd
    · exact h.range q x hx
  cover := by
    intro t q x hg hx
    rw [Meetings.meetings_remove ms p user m hd] at hg
    rw [Meetings.deref_remove ms p user m hd] at hx
    simp only [Meetings.relGet_remove ms p user m hd]
    by_cases hq : q = p
    · subst hq
      simp only [if_true, Option.some.injEq] at hx
      subst hx
      have hne : ¬ Users.Remove m.Participants user = [] := by
        intro he
        rw [if_pos he, Map.get_delete] at hg
        obtain ⟨y, hy, hyt⟩ : ∃ y, ms.deref q = some y ∧ y.Title = t := by
          split_ifs at hg
          exact h.prim t q hg
        rw [hd] at hy; cases hy
        simp [hyt] at hg
      rw [if_neg hne] at hg
      have hc := h.cover t q m hg hd
      constructor
      · have : ¬ (m.Host = user ∧ t = m.Title ∧ (user ≠ m.Host ∨ Users.Remove m.Participants user = [])) := by
          rintro ⟨h1, _, h3⟩
          rcases h3 with h3 | h3
          · exact h3 h1.symm
          · exact hne h3
        simp only [this, if_false]
        exact hc.1
      · intro u hu
        rw [Meetings.mem_Users_Remove] at hu
        simp only [hu.2, false_and, if_false]
        exact hc.2 u hu.1
    · simp only [hq, if_false] at hx
      have hg2 : Map.get ms.meetings t = some q := by
        split_ifs at hg
        · rw [Map.get_delete] at hg
          split_ifs at hg
          exact hg
        · exact hg
      have hc := h.cover t q x hg2 hx
      have key : ∀ u, ms.relGet u t = some q →
          ¬ (u = user ∧ t = m.Title ∧ (user ≠ m.Host ∨ Users.Remove m.Participants user = [])) := by
        rintro u hu ⟨h1, h2, _⟩
        subst h1; subst h2
        rw [hrel] at hu
        cases hu
        exact hq rfl
      constructor
      · simp only [key _ hc.1, if_false]
        exact hc.1
      · intro u hu
        simp only [key _ (hc.2 u hu), if_false]
        exact hc.2 u hu

theorem consistent_addParticipant (ms : Meetings) (title user : String) (p : Nat) (m : Meeting)
    (h : Consistent ms) (hg : Map.get ms.meetings title = some p) (hd : ms.deref p = some m) :
    Consistent (({ ms with heap := ms.heap.set p { m with Participants := Users.Add m.Participants user } } :
      Meetings).addRelatedMeeting user p m.Title) := by
  have hmt : m.Title = title := by
    obtain ⟨y, hy, hyt⟩ := h.prim title p hg
    rw [hd] at hy; cases hy; exact hyt
  have eD : ∀ q, (({ ms with heap := ms.heap.set p { m with Participants := Users.Add m.Participants user } } :
      Meetings).addRelatedMeeting user p m.Title).deref q =
      if q = p then some { m with Participants := Users.Add m.Participants user }
      else ms.deref q := by
    intro q
    rw [← Meetings.deref_set ms p m _ hd q]
    unfold Meetings.deref
    rw [Meetings.heap_addRelatedMeeting]
  have eR : ∀ u t, (({ ms with heap := ms.heap.set p { m with Participants := Users.Add m.Participants user } } :
      Meetings).addRelatedMeeting user p m.Title).relGet u t =
      if u = user ∧ t = m.Title then some p else ms.relGet u t := by
    intro u t
    rw [Meetings.relGet_addRelatedMeeting]
    rfl
  have eM : (({ ms with heap := ms.heap.set p { m with Participants := Users.Add m.Participants user } } :
      Meetings).addRelatedMeeting user p m.Title).meetings = ms.meetings := by
    rw [Meetings.meetings_addRelatedMeeting]
  have derefTitle : ∀ q x, ms.deref q = some x →
      ∃ y, (if q = p then some { m with Participants := Users.Add m.Participants user }
        else ms.deref q) = some y ∧ y.Title = x.Title := by
    intro q x hx
    by_cases hq : q = p
    · subst hq
      rw [hd] at hx; cases hx
      exact ⟨{ m with Participants := Users.Add m.Participants user }, by simp, rfl⟩
    · exact ⟨x, by simp [hq, hx], rfl⟩
  constructor
  · intro t q hq
    rw [eM] at hq
    obtain ⟨x, hx, hxt⟩ := h.prim t q hq
    obtain ⟨y, hy, hyt⟩ := derefTitle q x hx
    rw [eD]
    exact ⟨y, hy, hyt.trans hxt⟩
  · intro u t q hq
    rw [eR] at hq
    rw [eD]
    split_ifs at hq with hc
    · cases hq
      exact ⟨{ m with Participants := Users.Add m.Participants user }, by simp, hc.2.symm⟩
    · obtain ⟨x, hx, hxt⟩ := h.rel u t q hq
      obtain ⟨y, hy, hyt⟩ := derefTitle q x hx
      exact ⟨y, hy, hyt.trans hxt⟩
  · intro v
    have hn : ∀ w, (Map.keys (({ ms with heap := ms.heap.set p { m with Participants := Users.Add m.Participants user } } :
        Meetings).Related w)).Nodup := h.nodup
    exact Meetings.nodup_addRelatedMeeting _ _ _ _ hn v
  · intro q x hx
    rw [eD] at hx
    split_ifs at hx
    · cases hx; exact h.range p m hd
    · exact h.range q x hx
  · intro t q x hq hx
    rw [eM] at hq
    rw [eD] at hx
    simp only [eR]
    by_cases hqp : q = p
    · subst hqp
      simp only [if_true, Option.some.injEq] at hx
      subst hx
      have ht : t = title := by
        obtain ⟨y, hy, hyt⟩ := h.prim t q hq
        rw [hd] at hy; cases hy
        rw [← hyt, hmt]
      subst ht
      have hc := h.cover t q m hq hd
      constructor
      · split_ifs
        · rfl
        · exact hc.1
      · intro u hu
        rw [Meetings.mem_Users_Add] at hu
        split_ifs with hcond
        · rfl
        · rcases hu with hu | hu
          · exact hc.2 u hu
          · exact absurd ⟨hu, hmt.symm⟩ hcond
    · simp only [hqp, if_false] at hx
      have hc := h.cover t q x hq hx
      have ht : ¬ t = m.Title := by
        intro e
        rw [e, hmt, hg] at hq
        cases hq
        exact hqp rfl
      simp only [ht, and_false, if_false]
      exact hc

theorem consistent_Host (ms : Meetings) (m : Meeting) (h : Consistent ms) :
    Consistent (ms.Host m).2 := by
  unfold Meetings.Host
  by_cases h1 : m.End > m.Start
  · simp only [h1, not_true_eq_false, if_false]
    split_ifs
    · exact h
    · exact h
    · exact consistent_host ms m h h1
  · simp only [h1, not_false_eq_true, if_true]
    exact h

theorem consistent_Cancel (ms : Meetings) (title : String) (h : Consistent ms) :
    Consistent (ms.Cancel title).2 := by
  unfold Meetings.Cancel
  split
  · exact h
  · split
    · exact h
    · exact consistent_cancel ms _ h

theorem consistent_cancelAllStep (host : String) (ms : Meetings) (title : String)
    (h : Consistent ms) : Consistent (Meetings.cancelAllStep host ms title) := by
  unfold Meetings.cancelAllStep
  split
  · exact h
  · split
    · exact h
    · split_ifs
      · exact consistent_cancel ms _ h
      · exact h

theorem consistent_foldl_cancelAllStep (host : String) (ks : List String) (ms : Meetings)
    (h : Consistent ms) : Consistent (ks.foldl (Meetings.cancelAllStep host) ms) := by
  induction ks generalizing ms with
  | nil => exact h
  | cons k rest ih => exact ih _ (consistent_cancelAllStep host ms k h)

theorem consistent_CancelAll (ms : Meetings) (host : String) (h : Consistent ms) :
    Consistent (ms.CancelAll host) :=
  consistent_foldl_cancelAllStep host _ ms h

theorem consistent_Remove (ms : Meetings) (title user : String) (h : Consistent ms) :
    Consistent (ms.Remove title user).2 := by
  unfold Meetings.Remove
  split
  · exact h
  · rename_i p hp
    split
    · exact h
    · rename_i m hm
      split_ifs with hl
      · exact h
      · have hmem : user ∈ m.Participants := by
          simpa [Users.Lookup] using hl
        have hmt : m.Title = title := by
          obtain ⟨y, hy, hyt⟩ := h.prim title p hp
          rw [hm] at hy; cases hy; exact hyt
        have hc := (h.cover title p m hp hm).2 user hmem
        exact consistent_remove ms p user m h hm (by rw [hmt]; exact hc)

theorem consistent_foldl_remove (user : String) (es : Map Nat) (ms : Meetings)
    (h : Consistent ms) (hn : (Map.keys es).Nodup)
    (he : ∀ e ∈ es, ms.relGet user e.1 = some e.2) :
    Consistent ((es.map Prod.snd).foldl (fun acc p => acc.remove p user) ms) := by
  induction es generalizing ms with
  | nil => exact h
  | cons e rest ih =>
    obtain ⟨t, p⟩ := e
    simp only [Map.keys, List.map_cons, List.nodup_cons, List.mem_map, not_exists, not_and] at hn
    have hp : ms.relGet user t = some p := he (t, p) (List.mem_cons_self _ _)
    obtain ⟨m, hm, hmt⟩ := h.rel user t p hp
    simp only [List.map_cons, List.foldl_cons]
    apply ih
    · exact consistent_remove ms p user m h hm (by rw [hmt]; exact hp)
    · exact hn.2
    · intro e2 he2
      have hne : ¬ e2.1 = m.Title := by
        intro e3
        rw [hmt] at e3
        exact hn.1 e2 he2 e3
      rw [Meetings.relGet_remove ms p user m hm]
      simp only [hne, false_and, and_false, if_false]
      exact he e2 (List.mem_cons_of_mem _ he2)

theorem consistent_RemoveAll (ms : Meetings) (user : String) (h : Consistent ms) :
    Consistent (ms.RemoveAll user).2 := by
  unfold Meetings.RemoveAll
  have h1 := consistent_CancelAll ms user h
  apply consistent_foldl_remove user _ _ h1 (h1.nodup user)
  intro e he
  exact Map.get_eq_some_of_mem _ _ _ (h1.nodup user) he

theorem consistent_Add (ms : Meetings) (title user : String) (h : Consistent ms) :
    Consistent (ms.Add title user).2 := by
  unfold Meetings.Add
  split
  · exact h
  · rename_i p hp
    split
    · exact h
    · rename_i m hm
      split_ifs
      · exact h
      · exact h
      · exact consistent_addParticipant ms title user p m h hp hm

theorem consistent_applyCall (ms : Meetings) (c : Call) (h : Consistent ms) :
    Consistent (applyCall ms c) := by
  cases c with
  | Host m => exact consistent_Host ms m h
  | Cancel t => exact consistent_Cancel ms t h
  | CancelAll u => exact consistent_CancelAll ms u h
  | Add t u => exact consistent_Add ms t u h
  | Remove t u => exact consistent_Remove ms t u h
  | RemoveAll u => exact consistent_RemoveAll ms u h

theorem consistent_runCalls (cs : List Call) (ms : Meetings) (h : Consistent ms) :
    Consistent (runCalls ms cs) := by
  induction cs generalizing ms with
  | nil => exact h
  | cons c rest ih => exact ih _ (consistent_applyCall ms c h)

theorem consistent_of_reachable (ms : Meetings) (h : Reachable ms) : Consistent ms := by
  obtain ⟨cs, rfl⟩ := h
  exact consistent_runCalls cs _ consistent_NewMeetings

/-! ## The conflict scans -/

theorem hostConflict_iff (ms : Meetings) (m : Meeting) :
    ms.hostConflict m = true ↔ HostConflictExists ms m := by
  unfold Meetings.hostConflict HostConflictExists
  simp only [List.any_eq_true]
  constructor
  · rintro ⟨u, hu, e, he, hov⟩
    refine ⟨u, hu, e, he, ?_⟩
    cases hd : ms.deref e.2 with
    | none => simp [hd] at hov
    | some um => exact ⟨um, rfl, by simpa [hd] using hov⟩
  · rintro ⟨u, hu, e, he, um, hd, hov⟩
    exact ⟨u, hu, e, he, by simpa [hd] using hov⟩

theorem addConflict_iff (ms : Meetings) (user : String) (m : Meeting) :
    ms.addConflict user m = true ↔ AddConflictExists ms user m := by
  unfold Meetings.addConflict AddConflictExists
  simp only [List.any_eq_true]
  constructor
  · rintro ⟨e, he, hov⟩
    refine ⟨e, he, ?_⟩
    cases hd : ms.deref e.2 with
    | none => simp [hd] at hov
    | some um => exact ⟨um, rfl, by simpa [hd] using hov⟩
  · rintro ⟨e, he, um, hd, hov⟩
    exact ⟨e, he, by simpa [hd] using hov⟩

theorem hostConflictExists_perm (ms ms2 : Meetings) (m : Meeting) (parts2 : Users)
    (hh : ms2.heap = ms.heap) (hr : ∀ u, (ms2.Related u).Perm (ms.Related u))
    (hp : parts2.Perm m.Participants) :
    HostConflictExists ms2 { m with Participants := parts2 } ↔ HostConflictExists ms m := by
  have hd : ∀ q, ms2.deref q = ms.deref q := by
    intro q; unfold Meetings.deref; rw [hh]
  unfold HostConflictExists
  constructor
  · rintro ⟨u, hu, e, he, um, hde, hov⟩
    exact ⟨u, hp.mem_iff.mp hu, e, (hr u).mem_iff.mp he, um, by rw [← hd]; exact hde, hov⟩
  · rintro ⟨u, hu, e, he, um, hde, hov⟩
    exact ⟨u, hp.mem_iff.mpr hu, e, (hr u).mem_iff.mpr he, um, by rw [hd]; exact hde, hov⟩

theorem Host_result (ms : Meetings) (m : Meeting) :
    (ms.Host m).1 =
      if ¬ m.End > m.Start then Err.InvalidTime
      else if ms.Has m.Title = true then Err.DuplicateMeeting
      else if ms.hostConflict m = true then Err.TimeConflict
      else Err.OK := by
  unfold Meetings.Host
  by_cases h1 : m.End > m.Start
  · simp only [h1, not_true_eq_false, if_false]
    split_ifs <;> rfl
  · simp only [h1, not_false_eq_true, if_true]

/-! ## The claims -/

/-- C1 (the code breaks it). The claim says that no reachable registry holds
two overlapping meetings in one user's relation bucket.  `Host` checks the
participants only, not the host: after hosting `standup` over `[0, 10)` and
`review` over `[5, 15)`, both with host `hana` who is not listed as a
participant, both calls return `OK` and `Related("hana")` holds both
meetings, whose ranges overlap. -/
theorem host_double_books_unlisted_host :
    (NewMeetings.Host ⟨"standup", "hana", ["pat"], 0, 10⟩).1 = Err.OK ∧
    ((NewMeetings.Host ⟨"standup", "hana", ["pat"], 0, 10⟩).2.Host
      ⟨"review", "hana", ["quin"], 5, 15⟩).1 = Err.OK ∧
    Reachable (runCalls NewMeetings
      [Call.Host ⟨"standup", "hana", ["pat"], 0, 10⟩, Call.Host ⟨"review", "hana", ["quin"], 5, 15⟩]) ∧
    (runCalls NewMeetings
      [Call.Host ⟨"standup", "hana", ["pat"], 0, 10⟩,
        Call.Host ⟨"review", "hana", ["quin"], 5, 15⟩]).Related "hana"
        = [("review", 1), ("standup", 0)] ∧
    ¬ NoDoubleBooking (runCalls NewMeetings
      [Call.Host ⟨"standup", "hana", ["pat"], 0, 10⟩, Call.Host ⟨"review", "hana", ["quin"], 5, 15⟩]) := by
  refine ⟨by decide, by decide, ⟨_, rfl⟩, by decide, ?_⟩
  intro h
  have h2 := h "hana" "standup" "review" 0 1 ⟨"standup", "hana", ["pat"], 0, 10⟩
    ⟨"review", "hana", ["quin"], 5, 15⟩ (by decide) (by decide) (by decide) (by decide) (by decide)
  revert h2
  decide

/-- C2. `Host` classifies its input in a fixed order: `InvalidTime` iff the
end is not strictly after the start; otherwise `DuplicateMeeting` iff the
title is in the primary index; otherwise `TimeConflict` iff some participant
has a related meeting overlapping the new range; otherwise `OK`.  The result
does not depend on the order in which the participants and the relation
buckets are visited. -/
theorem Host_classifies_in_order (ms : Meetings) (m : Meeting) :
    ((ms.Host m).1 = Err.InvalidTime ↔ ¬ m.End > m.Start) ∧
    ((ms.Host m).1 = Err.DuplicateMeeting ↔ m.End > m.Start ∧ ms.Has m.Title = true) ∧
    ((ms.Host m).1 = Err.TimeConflict ↔
      m.End > m.Start ∧ ms.Has m.Title = false ∧ HostConflictExists ms m) ∧
    ((ms.Host m).1 = Err.OK ↔
      m.End > m.Start ∧ ms.Has m.Title = false ∧ ¬ HostConflictExists ms m) ∧
    (∀ (ms2 : Meetings) (parts2 : Users), ms2.heap = ms.heap → ms2.meetings = ms.meetings →
      (∀ u, (ms2.Related u).Perm (ms.Related u)) → parts2.Perm m.Participants →
      (ms2.Host { m with Participants := parts2 }).1 = (ms.Host m).1) := by
  have key : ∀ (x : Meetings) (y : Meeting),
      ((x.Host y).1 = Err.InvalidTime ↔ ¬ y.End > y.Start) ∧
      ((x.Host y).1 = Err.DuplicateMeeting ↔ y.End > y.Start ∧ x.Has y.Title = true) ∧
      ((x.Host y).1 = Err.TimeConflict ↔
        y.End > y.Start ∧ x.Has y.Title = false ∧ HostConflictExists x y) ∧
      ((x.Host y).1 = Err.OK ↔
        y.End > y.Start ∧ x.Has y.Title = false ∧ ¬ HostConflictExists x y) := by
    intro x y
    rw [Host_result, ← hostConflict_iff]
    by_cases h1 : y.End > y.Start <;> by_cases h2 : x.Has y.Title = true <;>
      by_cases h3 : x.hostConflict y = true <;> simp [h1, h2, h3]
  refine ⟨(key ms m).1, (key ms m).2.1, (key ms m).2.2.1, (key ms m).2.2.2, ?_⟩
  intro ms2 parts2 hh hm hr hp
  have hc := hostConflictExists_perm ms ms2 m parts2 hh hr hp
  have hHas : ms2.Has m.Title = ms.Has m.Title := by unfold Meetings.Has; rw [hm]
  rw [Host_result, Host_result]
  have e1 : ms2.hostConflict { m with Participants := parts2 } = ms.hostConflict m := by
    rw [Bool.eq_iff_iff, hostConflict_iff, hostConflict_iff]; exact hc
  simp only [e1, hHas]

theorem Host_ok_state (ms : Meetings) (m : Meeting) (h : (ms.Host m).1 = Err.OK) :
    (ms.Host m).2 = ({ ms with heap := ms.heap ++ [m] } : Meetings).host ms.heap.length m := by
  revert h
  unfold Meetings.Host
  by_cases h1 : m.End > m.Start
  · simp only [h1, not_true_eq_false, if_false]
    split_ifs <;> simp
  · simp only [h1, not_false_eq_true, if_true]
    intro h; cases h

/-- C3. `Host` is atomic on failure: when it returns a code other than `OK`
(which is then `InvalidTime`, `DuplicateMeeting` or `TimeConflict`), the
registry (primary index, relation buckets and stored meetings) is exactly
the registry before the call; an input with `End ≤ Start` is such a failure
with code `InvalidTime`, so its title stays absent when it was absent, and
after `DuplicateMeeting` the title still leads to the meeting stored first. -/
theorem Host_failure_changes_nothing (ms : Meetings) (m : Meeting)
    (h : (ms.Host m).1 ≠ Err.OK) :
    (ms.Host m).2 = ms ∧
    ((ms.Host m).1 = Err.InvalidTime ∨ (ms.Host m).1 = Err.DuplicateMeeting ∨
      (ms.Host m).1 = Err.TimeConflict) ∧
    (m.End ≤ m.Start → (ms.Host m).1 = Err.InvalidTime) ∧
    ((ms.Host m).1 = Err.InvalidTime → ms.Has m.Title = false →
      (ms.Host m).2.Has m.Title = false) ∧
    ((ms.Host m).1 = Err.DuplicateMeeting →
      ∃ p, ms.Lookup m.Title = some p ∧ (ms.Host m).2.Lookup m.Title = some p ∧
        (ms.Host m).2.deref p = ms.deref p) ∧
    (∀ u, (ms.Host m).2.Related u = ms.Related u) := by
  have hs : (ms.Host m).2 = ms := by
    revert h
    unfold Meetings.Host
    by_cases h1 : m.End > m.Start
    · simp only [h1, not_true_eq_false, if_false]
      split_ifs <;> simp
    · simp only [h1, not_false_eq_true, if_true]
      intro _; trivial
  have hr := Host_result ms m
  refine ⟨hs, ?_, ?_, ?_, ?_, ?_⟩
  · rw [hr] at h ⊢
    by_cases h1 : m.End > m.Start <;> by_cases h2 : ms.Has m.Title = true <;>
      by_cases h3 : ms.hostConflict m = true <;> simp [h1, h2, h3] at h ⊢
  · intro hle
    rw [hr]
    have h1 : ¬ m.End > m.Start := not_lt.mpr hle
    simp [h1]
  · intro _ hHas
    rw [hs]; exact hHas
  · intro hdup
    have h2 : ms.Has m.Title = true := by
      rw [hr] at hdup
      by_cases h1 : m.End > m.Start <;> by_cases h2 : ms.Has m.Title = true <;>
        by_cases h3 : ms.hostConflict m = true <;> simp [h1, h2, h3] at hdup ⊢
    unfold Meetings.Has at h2
    cases hg : Map.get ms.meetings m.Title with
    | none => simp [hg] at h2
    | some p => exact ⟨p, hg, by rw [hs]; exact hg, by rw [hs]⟩
  · intro u
    rw [hs]

/-- Witness for C3: hosting a zero-length meeting into the empty registry. -/
theorem Host_failure_changes_nothing_witness :
    (NewMeetings.Host ⟨"retro", "hana", ["hana"], 7, 7⟩).1 ≠ Err.OK ∧
    (NewMeetings.Host ⟨"retro", "hana", ["hana"], 7, 7⟩).2 = NewMeetings :=
  ⟨by decide,
    (Host_failure_changes_nothing NewMeetings ⟨"retro", "hana", ["hana"], 7, 7⟩ (by decide)).1⟩

/-- C4. When `Host(m)` returns `OK`, the new object `m` is stored under
`m.Title` in the primary index and under `m.Title` in the relation bucket of
every participant of `m` and of `m.Host`; every other primary entry, every
other relation entry and every meeting stored before are unchanged. -/
theorem Host_ok_inserts (ms : Meetings) (m : Meeting) (h : (ms.Host m).1 = Err.OK) :
    (ms.Host m).2.Lookup m.Title = some ms.heap.length ∧
    (ms.Host m).2.deref ms.heap.length = some m ∧
    (ms.Host m).2.Has m.Title = true ∧
    (∀ u, u ∈ m.Participants ∨ u = m.Host →
      (ms.Host m).2.relGet u m.Title = some ms.heap.length ∧
      (m.Title, ms.heap.length) ∈ (ms.Host m).2.Related u) ∧
    (∀ t, t ≠ m.Title → (ms.Host m).2.Lookup t = ms.Lookup t) ∧
    (∀ u t, ¬ ((u ∈ m.Participants ∨ u = m.Host) ∧ t = m.Title) →
      (ms.Host m).2.relGet u t = ms.relGet u t) ∧
    (∀ u, ¬ (u ∈ m.Participants ∨ u = m.Host) → (ms.Host m).2.Related u = ms.Related u) ∧
    (∀ q, q ≠ ms.heap.length → (ms.Host m).2.deref q = ms.deref q) := by
  have hs := Host_ok_state ms m h
  have eR : ∀ u t, ({ ms with heap := ms.heap ++ [m] } : Meetings).relGet u t = ms.relGet u t :=
    fun _ _ => rfl
  have hrel : ∀ u, u ∈ m.Participants ∨ u = m.Host →
      (ms.Host m).2.relGet u m.Title = some ms.heap.length := by
    intro u hu
    rw [hs, Meetings.relGet_host]
    have : (u = m.Host ∨ u ∈ m.Participants) ∧ m.Title = m.Title := ⟨hu.symm, rfl⟩
    simp [this]
  refine ⟨?_, ?_, ?_, ?_, ?_, ?_, ?_, ?_⟩
  · rw [hs]; unfold Meetings.Lookup
    rw [Meetings.meetings_host, Map.get_set]; simp
  · rw [hs, Meetings.deref_host, Meetings.deref_alloc]; simp
  · rw [hs]; unfold Meetings.Has
    rw [Meetings.meetings_host, Map.get_set]; simp
  · intro u hu
    exact ⟨hrel u hu, Map.mem_of_get_eq_some _ _ _ (hrel u hu)⟩
  · intro t ht
    rw [hs]; unfold Meetings.Lookup
    rw [Meetings.meetings_host, Map.get_set]; simp [ht]
  · intro u t hn
    rw [hs, Meetings.relGet_host, eR]
    have : ¬ ((u = m.Host ∨ u ∈ m.Participants) ∧ t = m.Title) := by
      rintro ⟨h1, h2⟩; exact hn ⟨h1.symm, h2⟩
    simp [this]
  · intro u hn
    rw [hs]
    unfold Meetings.host
    have hu1 : ¬ u = m.Host := fun e => hn (Or.inr e)
    have hu2 : u ∉ m.Participants := fun e => hn (Or.inl e)
    rw [Meetings.Related_addRelatedMeeting]
    simp only [hu1, if_false]
    have gen : ∀ (parts : List String) (x : Meetings), u ∉ parts →
        (parts.foldl (fun acc v => acc.addRelatedMeeting v ms.heap.length m.Title) x).Related u
          = x.Related u := by
      intro parts
      induction parts with
      | nil => intro x _; rfl
      | cons a rest ih =>
        intro x hx
        simp only [List.mem_cons, not_or] at hx
        simp only [List.foldl_cons]
        rw [ih _ hx.2, Meetings.Related_addRelatedMeeting]
        simp [hx.1]
    rw [gen _ _ hu2]
    rfl
  · intro q hq
    rw [hs, Meetings.deref_host, Meetings.deref_alloc]; simp [hq]

/-- Witness for C4: hosting a meeting whose host is not among its
participants into the empty registry. -/
theorem Host_ok_inserts_witness :
    (NewMeetings.Host ⟨"standup", "hana", ["pat"], 0, 10⟩).1 = Err.OK ∧
    (NewMeetings.Host ⟨"standup", "hana", ["pat"], 0, 10⟩).2.relGet "hana" "standup" = some 0 :=
  ⟨by decide,
    ((Host_ok_inserts NewMeetings ⟨"standup", "hana", ["pat"], 0, 10⟩ (by decide)).2.2.2.1
      "hana" (Or.inr rfl)).1⟩

/-- C5. In every registry reachable from the empty one, a meeting stored in
the primary index under `t` is an object `M` titled `t`, and it is the entry
under `t` in the relation bucket of `M.Host` and of every current
participant of `M`. -/
theorem primary_covered_by_relation (ms : Meetings) (h : Reachable ms) :
    ∀ t p, ms.Lookup t = some p →
      ∃ M, ms.deref p = some M ∧ M.Title = t ∧
        ms.relGet M.Host t = some p ∧ (t, p) ∈ ms.Related M.Host ∧
        ∀ u ∈ M.Participants, ms.relGet u t = some p ∧ (t, p) ∈ ms.Related u := by
  intro t p hl
  have hc := consistent_of_reachable ms h
  obtain ⟨M, hM, hMt⟩ := hc.prim t p hl
  have hcov := hc.cover t p M hl hM
  refine ⟨M, hM, hMt, hcov.1, Map.mem_of_get_eq_some _ _ _ hcov.1, ?_⟩
  intro u hu
  exact ⟨hcov.2 u hu, Map.mem_of_get_eq_some _ _ _ (hcov.2 u hu)⟩

/-- Witness for C5: the registry after hosting one meeting and adding one
participant. -/
theorem primary_covered_by_relation_witness :
    Reachable (runCalls NewMeetings
      [Call.Host ⟨"standup", "hana", ["hana", "pat"], 0, 10⟩, Call.Add "standup" "quin"]) ∧
    ∀ t p, (runCalls NewMeetings
      [Call.Host ⟨"standup", "hana", ["hana", "pat"], 0, 10⟩, Call.Add "standup" "quin"]).Lookup t
        = some p →
      ∃ M, (runCalls NewMeetings
        [Call.Host ⟨"standup", "hana", ["hana", "pat"], 0, 10⟩, Call.Add "standup" "quin"]).deref p
          = some M ∧ M.Title = t ∧
        (runCalls NewMeetings
          [Call.Host ⟨"standup", "hana", ["hana", "pat"], 0, 10⟩, Call.Add "standup" "quin"]).relGet
            M.Host t = some p ∧
        (t, p) ∈ (runCalls NewMeetings
          [Call.Host ⟨"standup", "hana", ["hana", "pat"], 0, 10⟩, Call.Add "standup" "quin"]).Related
            M.Host ∧
        ∀ u ∈ M.Participants,
          (runCalls NewMeetings
            [Call.Host ⟨"standup", "hana", ["hana", "pat"], 0, 10⟩,
              Call.Add "standup" "quin"]).relGet u t = some p ∧
          (t, p) ∈ (runCalls NewMeetings
            [Call.Host ⟨"standup", "hana", ["hana", "pat"], 0, 10⟩,
              Call.Add "standup" "quin"]).Related u :=
  ⟨⟨_, rfl⟩, primary_covered_by_relation _ ⟨_, rfl⟩⟩

/-- C6 (the code breaks it). The claim says that every relation entry refers
to a meeting that is in the primary index.  `cancel` unlinks the participants
only, and `remove` unlinks only the user it removes: after `Host` of a
meeting whose host `hana` is not a participant and `Cancel` of it, and also
after `Host` of a meeting with participants `hana` (the host) and `pat`
followed by `Remove` of `hana` and `Remove` of `pat`, the title is absent
from the primary index while `Related("hana")` still holds the meeting. -/
theorem cancelled_meeting_stays_in_host_bucket :
    (Reachable (runCalls NewMeetings
        [Call.Host ⟨"standup", "hana", ["pat"], 0, 10⟩, Call.Cancel "standup"]) ∧
      ((NewMeetings.Host ⟨"standup", "hana", ["pat"], 0, 10⟩).2.Cancel "standup").1 = Err.OK ∧
      (runCalls NewMeetings
        [Call.Host ⟨"standup", "hana", ["pat"], 0, 10⟩, Call.Cancel "standup"]).Has "standup"
          = false ∧
      (runCalls NewMeetings
        [Call.Host ⟨"standup", "hana", ["pat"], 0, 10⟩, Call.Cancel "standup"]).Related "hana"
          = [("standup", 0)]) ∧
    (Reachable (runCalls NewMeetings
        [Call.Host ⟨"standup", "hana", ["hana", "pat"], 0, 10⟩, Call.Remove "standup" "hana",
          Call.Remove "standup" "pat"]) ∧
      (runCalls NewMeetings
        [Call.Host ⟨"standup", "hana", ["hana", "pat"], 0, 10⟩, Call.Remove "standup" "hana",
          Call.Remove "standup" "pat"]).Has "standup" = false ∧
      (runCalls NewMeetings
        [Call.Host ⟨"standup", "hana", ["hana", "pat"], 0, 10⟩, Call.Remove "standup" "hana",
          Call.Remove "standup" "pat"]).Related "hana" = [("standup", 0)]) := by
  refine ⟨⟨⟨_, rfl⟩, by decide, by decide, by decide⟩, ⟨⟨_, rfl⟩, by decide, by decide⟩⟩

theorem has_true_deref (ms : Meetings) (hc : Consistent ms) (title : String)
    (h : ms.Has title = true) :
    ∃ p M, Map.get ms.meetings title = some p ∧ ms.deref p = some M ∧ M.Title = title := by
  unfold Meetings.Has at h
  cases hg : Map.get ms.meetings title with
  | none => simp [hg] at h
  | some p =>
    obtain ⟨M, hM, hMt⟩ := hc.prim title p hg
    exact ⟨p, M, rfl, hM, hMt⟩

theorem has_false_get (ms : Meetings) (title : String) (h : ms.Has title = false) :
    Map.get ms.meetings title = none := by
  unfold Meetings.Has at h
  cases hg : Map.get ms.meetings title with
  | none => rfl
  | some p => simp [hg] at h

theorem Cancel_of_get (ms : Meetings) (title : String) (p : Nat) (M : Meeting)
    (hg : Map.get ms.meetings title = some p) (hd : ms.deref p = some M) :
    ms.Cancel title = (Err.OK, ms.cancel M) := by
  unfold Meetings.Cancel
  simp only [hg, hd]

theorem Cancel_of_absent (ms : Meetings) (title : String)
    (hg : Map.get ms.meetings title = none) :
    ms.Cancel title = (Err.NoSuchMeeting, ms) := by
  unfold Meetings.Cancel
  simp only [hg]

/-- C7. In a reachable registry `Cancel(title)` returns `NoSuchMeeting` iff
the title is absent, and then changes nothing; otherwise it returns `OK`,
the title is absent afterwards from the primary index and from the relation
bucket of every participant the meeting had, and the entries of the primary
index under the other titles and the stored meetings are unchanged. -/
theorem Cancel_contract (ms : Meetings) (h : Reachable ms) (title : String) :
    ((ms.Cancel title).1 = Err.NoSuchMeeting ↔ ms.Has title = false) ∧
    (ms.Has title = false → (ms.Cancel title).2 = ms) ∧
    (ms.Has title = true →
      ∃ p M, ms.Lookup title = some p ∧ ms.deref p = some M ∧
        (ms.Cancel title).1 = Err.OK ∧
        (ms.Cancel title).2.Has title = false ∧
        (∀ u ∈ M.Participants, (ms.Cancel title).2.relGet u title = none ∧
          title ∉ Map.keys ((ms.Cancel title).2.Related u)) ∧
        (∀ t, t ≠ title → (ms.Cancel title).2.Lookup t = ms.Lookup t) ∧
        (∀ q, (ms.Cancel title).2.deref q = ms.deref q)) := by
  have hc := consistent_of_reachable ms h
  have hOK : ms.Has title = true →
      ∃ p M, ms.Lookup title = some p ∧ ms.deref p = some M ∧ M.Title = title ∧
        ms.Cancel title = (Err.OK, ms.cancel M) := by
    intro hh
    obtain ⟨p, M, hg, hd, hMt⟩ := has_true_deref ms hc title hh
    exact ⟨p, M, hg, hd, hMt, Cancel_of_get ms title p M hg hd⟩
  refine ⟨?_, ?_, ?_⟩
  · constructor
    · intro hr
      by_contra hne
      have hh : ms.Has title = true := by simpa using hne
      obtain ⟨p, M, _, _, _, he⟩ := hOK hh
      rw [he] at hr
      cases hr
    · intro hh
      rw [Cancel_of_absent ms title (has_false_get ms title hh)]
  · intro hh
    rw [Cancel_of_absent ms title (has_false_get ms title hh)]
  · intro hh
    obtain ⟨p, M, hg, hd, hMt, he⟩ := hOK hh
    refine ⟨p, M, hg, hd, ?_, ?_, ?_, ?_, ?_⟩
    · rw [he]
    · rw [he]
      show (Map.get (ms.cancel M).meetings title).isSome = false
      rw [Meetings.meetings_cancel, Map.get_delete, hMt]
      simp
    · intro u hu
      have hrg : (ms.Cancel title).2.relGet u title = none := by
        rw [he]
        show (ms.cancel M).relGet u title = none
        rw [Meetings.relGet_cancel]
        simp [hu, hMt]
      refine ⟨hrg, ?_⟩
      rw [Map.mem_keys_iff]
      rintro ⟨v, hv⟩
      unfold Meetings.relGet at hrg
      rw [hrg] at hv
      cases hv
    · intro t ht
      rw [he]
      show Map.get (ms.cancel M).meetings t = Map.get ms.meetings t
      rw [Meetings.meetings_cancel, Map.get_delete, hMt]
      simp [ht]
    · intro q
      rw [he]
      exact Meetings.deref_cancel ms M q

/-- Witness for C7: cancelling the one meeting of a registry. -/
theorem Cancel_contract_witness :
    Reachable (runCalls NewMeetings [Call.Host ⟨"standup", "hana", ["hana", "pat"], 0, 10⟩]) ∧
    ((runCalls NewMeetings
      [Call.Host ⟨"standup", "hana", ["hana", "pat"], 0, 10⟩]).Cancel "standup").1 = Err.OK :=
  ⟨⟨_, rfl⟩, by
    obtain ⟨_, _, _, _, hok, _⟩ :=
      (Cancel_contract (runCalls NewMeetings
        [Call.Host ⟨"standup", "hana", ["hana", "pat"], 0, 10⟩]) ⟨_, rfl⟩ "standup").2.2
        (by decide)
    exact hok⟩

theorem Add_of_absent (ms : Meetings) (title user : String)
    (hg : Map.get ms.meetings title = none) :
    ms.Add title user = (Err.NoSuchMeeting, ms) := by
  unfold Meetings.Add
  simp only [hg]

theorem Add_of_get (ms : Meetings) (title user : String) (p : Nat) (M : Meeting)
    (hg : Map.get ms.meetings title = some p) (hd : ms.deref p = some M) :
    ms.Add title user =
      if Users.Lookup M.Participants user = true then (Err.DuplicateUser, ms)
      else if ms.addConflict user M = true then (Err.TimeConflict, ms)
      else (Err.OK, ({ ms with heap := ms.heap.set p { M with Participants := Users.Add M.Participants user } } :
        Meetings).addRelatedMeeting user p M.Title) := by
  unfold Meetings.Add
  simp only [hg, hd]

theorem Users_Lookup_iff (us : Users) (u : String) : Users.Lookup us u = true ↔ u ∈ us := by
  simp [Users.Lookup]

/-- C8. In a reachable registry `Add(title, user)` returns `NoSuchMeeting`
when the title is absent; otherwise `DuplicateUser` when the user is already
a participant; otherwise `TimeConflict` when a meeting related to the user
overlaps the meeting; otherwise `OK`.  On `OK` the user joins the
participants of the meeting and the meeting is filed under the title in the
user's bucket, with nothing else changed; on every other result the registry
is unchanged. -/
theorem Add_contract (ms : Meetings) (h : Reachable ms) (title user : String) :
    (ms.Has title = false → ms.Add title user = (Err.NoSuchMeeting, ms)) ∧
    (ms.Has title = true →
      ∃ p M, ms.Lookup title = some p ∧ ms.deref p = some M ∧ M.Title = title ∧
        (user ∈ M.Participants → ms.Add title user = (Err.DuplicateUser, ms)) ∧
        (user ∉ M.Participants → AddConflictExists ms user M →
          ms.Add title user = (Err.TimeConflict, ms)) ∧
        (user ∉ M.Participants → ¬ AddConflictExists ms user M →
          (ms.Add title user).1 = Err.OK ∧
          (ms.Add title user).2.deref p =
            some { M with Participants := Users.Add M.Participants user } ∧
          (∀ x, x ∈ Users.Add M.Participants user ↔ x ∈ M.Participants ∨ x = user) ∧
          (ms.Add title user).2.relGet user title = some p ∧
          (ms.Add title user).2.meetings = ms.meetings ∧
          (∀ u t, ¬ (u = user ∧ t = title) →
            (ms.Add title user).2.relGet u t = ms.relGet u t) ∧
          (∀ q, q ≠ p → (ms.Add title user).2.deref q = ms.deref q))) ∧
    ((ms.Add title user).1 ≠ Err.OK → (ms.Add title user).2 = ms) := by
  have hc := consistent_of_reachable ms h
  refine ⟨?_, ?_, ?_⟩
  · intro hh
    exact Add_of_absent ms title user (has_false_get ms title hh)
  · intro hh
    obtain ⟨p, M, hg, hd, hMt⟩ := has_true_deref ms hc title hh
    have he := Add_of_get ms title user p M hg hd
    refine ⟨p, M, hg, hd, hMt, ?_, ?_, ?_⟩
    · intro hu
      rw [he, if_pos ((Users_Lookup_iff _ _).mpr hu)]
    · intro hu hcf
      have h1 : ¬ Users.Lookup M.Participants user = true := fun e => hu ((Users_Lookup_iff _ _).mp e)
      rw [he, if_neg h1, if_pos ((addConflict_iff ms user M).mpr hcf)]
    · intro hu hcf
      have h1 : ¬ Users.Lookup M.Participants user = true := fun e => hu ((Users_Lookup_iff _ _).mp e)
      have h2 : ¬ ms.addConflict user M = true := fun e => hcf ((addConflict_iff ms user M).mp e)
      rw [he, if_neg h1, if_neg h2]
      have eD : ∀ q, (({ ms with heap := ms.heap.set p { M with Participants := Users.Add M.Participants user } } :
          Meetings).addRelatedMeeting user p M.Title).deref q =
          if q = p then some { M with Participants := Users.Add M.Participants user }
          else ms.deref q := by
        intro q
        rw [← Meetings.deref_set ms p M _ hd q]
        unfold Meetings.deref
        rw [Meetings.heap_addRelatedMeeting]
      have eR : ∀ u t, (({ ms with heap := ms.heap.set p { M with Participants := Users.Add M.Participants user } } :
          Meetings).addRelatedMeeting user p M.Title).relGet u t =
          if u = user ∧ t = M.Title then some p else ms.relGet u t := by
        intro u t
        rw [Meetings.relGet_addRelatedMeeting]
        rfl
      refine ⟨rfl, ?_, Meetings.mem_Users_Add _ _, ?_, ?_, ?_, ?_⟩
      · show Meetings.deref _ p = _
        rw [eD]; simp
      · show Meetings.relGet _ user title = _
        rw [eR]; simp [hMt]
      · show Meetings.meetings _ = _
        rw [Meetings.meetings_addRelatedMeeting]
      · intro u t hn
        show Meetings.relGet _ u t = _
        rw [eR, hMt]; simp [hn]
      · intro q hq
        show Meetings.deref _ q = _
        rw [eD]; simp [hq]
  · intro hne
    cases hh : ms.Has title with
    | false => rw [Add_of_absent ms title user (has_false_get ms title hh)]
    | true =>
      obtain ⟨p, M, hg, hd, _⟩ := has_true_deref ms hc title hh
      have he := Add_of_get ms title user p M hg hd
      rw [he] at hne ⊢
      split_ifs at hne ⊢ <;> first | rfl | exact absurd rfl hne

/-- Witness for C8: adding the free user `quin` to the one meeting of a
registry returns `OK`. -/
theorem Add_contract_witness :
    Reachable (runCalls NewMeetings [Call.Host ⟨"standup", "hana", ["hana", "pat"], 0, 10⟩]) ∧
    ((runCalls NewMeetings [Call.Host ⟨"standup", "hana", ["hana", "pat"], 0, 10⟩]).Add
      "standup" "quin").1 = Err.OK :=
  ⟨⟨_, rfl⟩, by
    obtain ⟨p, M, hl, hd, _, _, _, hok⟩ :=
      (Add_contract (runCalls NewMeetings
        [Call.Host ⟨"standup", "hana", ["hana", "pat"], 0, 10⟩]) ⟨_, rfl⟩ "standup" "quin").2.1
        (by decide)
    have hp : p = 0 := by
      have h0 : (runCalls NewMeetings
          [Call.Host ⟨"standup", "hana", ["hana", "pat"], 0, 10⟩]).Lookup "standup" = some 0 := by
        decide
      rw [h0] at hl
      exact (Option.some.inj hl).symm
    subst hp
    have hM : M = ⟨"standup", "hana", ["hana", "pat"], 0, 10⟩ := by
      have h0 : (runCalls NewMeetings
          [Call.Host ⟨"standup", "hana", ["hana", "pat"], 0, 10⟩]).deref 0 =
          some ⟨"standup", "hana", ["hana", "pat"], 0, 10⟩ := by decide
      rw [h0] at hd
      exact (Option.some.inj hd).symm
    subst hM
    refine (hok (by decide) ?_).1
    rw [← addConflict_iff]
    decide⟩

theorem Remove_of_absent (ms : Meetings) (title user : String)
    (hg : Map.get ms.meetings title = none) :
    ms.Remove title user = (Err.NoSuchMeeting, ms) := by
  unfold Meetings.Remove
  simp only [hg]

theorem Remove_of_get (ms : Meetings) (title user : String) (p : Nat) (M : Meeting)
    (hg : Map.get ms.meetings title = some p) (hd : ms.deref p = some M) :
    ms.Remove title user =
      if Users.Lookup M.Participants user = false then (Err.NoSuchUser, ms)
      else (Err.OK, ms.remove p user) := by
  unfold Meetings.Remove
  simp only [hg, hd]

/-- C9. In a reachable registry `Remove(title, user)` returns `NoSuchMeeting`
when the title is absent, otherwise `NoSuchUser` when the user is not a
current participant, and changes nothing in both cases; otherwise it returns
`OK`, the user leaves the participants and the others stay, the title leaves
the user's bucket exactly when the user is not the host or no participant is
left, and the meeting leaves the primary index exactly when no participant
is left; nothing else changes. -/
theorem Remove_contract (ms : Meetings) (h : Reachable ms) (title user : String) :
    (ms.Has title = false → ms.Remove title user = (Err.NoSuchMeeting, ms)) ∧
    (ms.Has title = true →
      ∃ p M, ms.Lookup title = some p ∧ ms.deref p = some M ∧ M.Title = title ∧
        (user ∉ M.Participants → ms.Remove title user = (Err.NoSuchUser, ms)) ∧
        (user ∈ M.Participants →
          (ms.Remove title user).1 = Err.OK ∧
          ms.relGet user title = some p ∧
          (ms.Remove title user).2.deref p =
            some { M with Participants := Users.Remove M.Participants user } ∧
          (∀ x, x ∈ Users.Remove M.Participants user ↔ x ∈ M.Participants ∧ x ≠ user) ∧
          (ms.Remove title user).2.relGet user title =
            (if user ≠ M.Host ∨ Users.Remove M.Participants user = [] then none else some p) ∧
          (ms.Remove title user).2.Lookup title =
            (if Users.Remove M.Participants user = [] then none else some p) ∧
          (∀ t, t ≠ title → (ms.Remove title user).2.Lookup t = ms.Lookup t) ∧
          (∀ u t, ¬ (u = user ∧ t = title) →
            (ms.Remove title user).2.relGet u t = ms.relGet u t) ∧
          (∀ q, q ≠ p → (ms.Remove title user).2.deref q = ms.deref q))) := by
  have hc := consistent_of_reachable ms h
  refine ⟨?_, ?_⟩
  · intro hh
    exact Remove_of_absent ms title user (has_false_get ms title hh)
  · intro hh
    obtain ⟨p, M, hg, hd, hMt⟩ := has_true_deref ms hc title hh
    have he := Remove_of_get ms title user p M hg hd
    refine ⟨p, M, hg, hd, hMt, ?_, ?_⟩
    · intro hu
      have h1 : Users.Lookup M.Participants user = false := by
        simpa [Users.Lookup] using hu
      rw [he, if_pos h1]
    · intro hu
      have h1 : ¬ Users.Lookup M.Participants user = false := by
        simpa [Users.Lookup] using hu
      rw [he, if_neg h1]
      refine ⟨rfl, (hc.cover title p M hg hd).2 user hu, ?_, Meetings.mem_Users_Remove _ _,
        ?_, ?_, ?_, ?_, ?_⟩
      · show (ms.remove p user).deref p = _
        rw [Meetings.deref_remove ms p user M hd]; simp
      · show (ms.remove p user).relGet user title = _
        rw [Meetings.relGet_remove ms p user M hd, (hc.cover title p M hg hd).2 user hu]
        simp only [hMt, true_and]
      · show Map.get (ms.remove p user).meetings title = _
        rw [Meetings.meetings_remove ms p user M hd]
        split_ifs
        · rw [Map.get_delete, hMt]; simp
        · exact hg
      · intro t ht
        show Map.get (ms.remove p user).meetings t = Map.get ms.meetings t
        rw [Meetings.meetings_remove ms p user M hd]
        split_ifs
        · rw [Map.get_delete, hMt]; simp [ht]
        · rfl
      · intro u t hn
        show (ms.remove p user).relGet u t = _
        rw [Meetings.relGet_remove ms p user M hd, hMt]
        have : ¬ (u = user ∧ t = title ∧
            (user ≠ M.Host ∨ Users.Remove M.Participants user = [])) := by
          rintro ⟨a, b, _⟩; exact hn ⟨a, b⟩
        simp only [this, if_false]
      · intro q hq
        show (ms.remove p user).deref q = _
        rw [Meetings.deref_remove ms p user M hd]; simp [hq]

/-- Witness for C9: removing the participant `pat` from the one meeting of a
registry returns `OK`. -/
theorem Remove_contract_witness :
    Reachable (runCalls NewMeetings [Call.Host ⟨"standup", "hana", ["hana", "pat"], 0, 10⟩]) ∧
    ((runCalls NewMeetings [Call.Host ⟨"standup", "hana", ["hana", "pat"], 0, 10⟩]).Remove
      "standup" "pat").1 = Err.OK :=
  ⟨⟨_, rfl⟩, by
    obtain ⟨p, M, hl, hd, _, _, hok⟩ :=
      (Remove_contract (runCalls NewMeetings
        [Call.Host ⟨"standup", "hana", ["hana", "pat"], 0, 10⟩]) ⟨_, rfl⟩ "standup" "pat").2
        (by decide)
    have hp : p = 0 := by
      have h0 : (runCalls NewMeetings
          [Call.Host ⟨"standup", "hana", ["hana", "pat"], 0, 10⟩]).Lookup "standup" = some 0 := by
        decide
      rw [h0] at hl
      exact (Option.some.inj hl).symm
    subst hp
    have hM : M = ⟨"standup", "hana", ["hana", "pat"], 0, 10⟩ := by
      have h0 : (runCalls NewMeetings
          [Call.Host ⟨"standup", "hana", ["hana", "pat"], 0, 10⟩]).deref 0 =
          some ⟨"standup", "hana", ["hana", "pat"], 0, 10⟩ := by decide
      rw [h0] at hd
      exact (Option.some.inj hd).symm
    subst hM
    exact (hok (by decide)).1⟩

/-- C10 (the code breaks it). The claim says that removing all participants
of a meeting, in any order, leaves the meeting in no relation bucket.  With
participants `hana` (the host), `pat` and `quin` hosted into the empty
registry and removed in the order `hana`, `pat`, `quin`, every `Remove`
returns `OK`, the meeting keeps the participants not yet removed, and after
the last call the title is absent from the primary index and from the
buckets of `pat` and `quin`, but `Related("hana")` still holds the meeting:
`remove` unlinks only the user it removes.  In the order `pat`, `quin`,
`hana` of the specification the bucket of `hana` is emptied. -/
theorem remove_host_first_leaves_host_entry :
    (NewMeetings.Host ⟨"standup", "hana", ["hana", "pat", "quin"], 0, 10⟩).1 = Err.OK ∧
    ((runCalls NewMeetings
      [Call.Host ⟨"standup", "hana", ["hana", "pat", "quin"], 0, 10⟩]).Remove
        "standup" "hana").1 = Err.OK ∧
    (runCalls NewMeetings
      [Call.Host ⟨"standup", "hana", ["hana", "pat", "quin"], 0, 10⟩,
        Call.Remove "standup" "hana"]).deref 0
          = some ⟨"standup", "hana", ["pat", "quin"], 0, 10⟩ ∧
    ((runCalls NewMeetings
      [Call.Host ⟨"standup", "hana", ["hana", "pat", "quin"], 0, 10⟩,
        Call.Remove "standup" "hana"]).Remove "standup" "pat").1 = Err.OK ∧
    (runCalls NewMeetings
      [Call.Host ⟨"standup", "hana", ["hana", "pat", "quin"], 0, 10⟩,
        Call.Remove "standup" "hana", Call.Remove "standup" "pat"]).Lookup "standup"
          = some 0 ∧
    (runCalls NewMeetings
      [Call.Host ⟨"standup", "hana", ["hana", "pat", "quin"], 0, 10⟩,
        Call.Remove "standup" "hana", Call.Remove "standup" "pat"]).deref 0
          = some ⟨"standup", "hana", ["quin"], 0, 10⟩ ∧
    ((runCalls NewMeetings
      [Call.Host ⟨"standup", "hana", ["hana", "pat", "quin"], 0, 10⟩,
        Call.Remove "standup" "hana", Call.Remove "standup" "pat"]).Remove
          "standup" "quin").1 = Err.OK ∧
    (runCalls NewMeetings
      [Call.Host ⟨"standup", "hana", ["hana", "pat", "quin"], 0, 10⟩,
        Call.Remove "standup" "hana", Call.Remove "standup" "pat",
        Call.Remove "standup" "quin"]).Has "standup" = false ∧
    (runCalls NewMeetings
      [Call.Host ⟨"standup", "hana", ["hana", "pat", "quin"], 0, 10⟩,
        Call.Remove "standup" "hana", Call.Remove "standup" "pat",
        Call.Remove "standup" "quin"]).Related "pat" = [] ∧
    (runCalls NewMeetings
      [Call.Host ⟨"standup", "hana", ["hana", "pat", "quin"], 0, 10⟩,
        Call.Remove "standup" "hana", Call.Remove "standup" "pat",
        Call.Remove "standup" "quin"]).Related "quin" = [] ∧
    (runCalls NewMeetings
      [Call.Host ⟨"standup", "hana", ["hana", "pat", "quin"], 0, 10⟩,
        Call.Remove "standup" "hana", Call.Remove "standup" "pat",
        Call.Remove "standup" "quin"]).Related "hana" = [("standup", 0)] ∧
    (runCalls NewMeetings
      [Call.Host ⟨"standup", "hana", ["hana", "pat", "quin"], 0, 10⟩,
        Call.Remove "standup" "pat", Call.Remove "standup" "quin",
        Call.Remove "standup" "hana"]).Related "hana" = [] := by
  refine ⟨by decide, by decide, by decide, by decide, by decide, by decide, by decide,
    by decide, by decide, by decide, by decide, by decide⟩


/-! ## `RemoveAll`, `CancelAll` and the remaining claims -/

/-- C11 (the code breaks it). The claim says that `RemoveAll(U)` returns `OK`
and leaves `Related(U)` empty.  It does return `OK`, but the bucket keeps the
meetings that `U` hosts without taking part: after `Host` of a meeting with
host `hana` and participant `pat`, and also after `Host` of a meeting with
participants `hana` (the host) and `pat` followed by `Remove` of `hana`,
`RemoveAll("hana")` cancels the meeting and `Related("hana")` still holds it. -/
theorem removeAll_leaves_hosted_entry :
    (∀ (ms : Meetings) (u : String), (ms.RemoveAll u).1 = Err.OK) ∧
    (Reachable (runCalls NewMeetings [Call.Host ⟨"standup", "hana", ["pat"], 0, 10⟩]) ∧
      ((runCalls NewMeetings [Call.Host ⟨"standup", "hana", ["pat"], 0, 10⟩]).RemoveAll
        "hana").2.Has "standup" = false ∧
      ((runCalls NewMeetings [Call.Host ⟨"standup", "hana", ["pat"], 0, 10⟩]).RemoveAll
        "hana").2.Related "hana" = [("standup", 0)]) ∧
    (Reachable (runCalls NewMeetings
        [Call.Host ⟨"standup", "hana", ["hana", "pat"], 0, 10⟩, Call.Remove "standup" "hana"]) ∧
      ((runCalls NewMeetings
        [Call.Host ⟨"standup", "hana", ["hana", "pat"], 0, 10⟩,
          Call.Remove "standup" "hana"]).RemoveAll "hana").2.Related "hana"
            = [("standup", 0)]) := by
  refine ⟨fun _ _ => rfl, ⟨⟨_, rfl⟩, by decide, by decide⟩, ⟨⟨_, rfl⟩, by decide⟩⟩

theorem get_none_cancel (ms : Meetings) (m : Meeting) (t : String)
    (h : Map.get ms.meetings t = none) : Map.get (ms.cancel m).meetings t = none := by
  rw [Meetings.meetings_cancel, Map.get_delete]
  split_ifs
  · rfl
  · exact h

theorem get_none_cancelAllStep (host : String) (ms : Meetings) (k t : String)
    (h : Map.get ms.meetings t = none) :
    Map.get (Meetings.cancelAllStep host ms k).meetings t = none := by
  unfold Meetings.cancelAllStep
  split
  · exact h
  · split
    · exact h
    · split_ifs
      · exact get_none_cancel ms _ t h
      · exact h

theorem get_none_remove (ms : Meetings) (q : Nat) (user t : String)
    (h : Map.get ms.meetings t = none) : Map.get (ms.remove q user).meetings t = none := by
  cases hd : ms.deref q with
  | none => unfold Meetings.remove; simp only [hd]; exact h
  | some m =>
    rw [Meetings.meetings_remove ms q user m hd]
    split_ifs
    · rw [Map.get_delete]
      split_ifs
      · rfl
      · exact h
    · exact h

theorem get_none_foldl_remove (user t : String) (qs : List Nat) (ms : Meetings)
    (h : Map.get ms.meetings t = none) :
    Map.get (qs.foldl (fun acc q => acc.remove q user) ms).meetings t = none := by
  induction qs generalizing ms with
  | nil => exact h
  | cons q rest ih => exact ih _ (get_none_remove ms q user t h)

theorem cancelAll_loop_destroys (host t : String) (p : Nat) (M : Meeting) (hH : M.Host = host)
    (hT : M.Title = t) (ks : List String) (ms : Meetings) (hc : Consistent ms)
    (h : Map.get ms.meetings t = none ∨
      (t ∈ ks ∧ ms.relGet host t = some p ∧ ms.deref p = some M)) :
    Map.get (ks.foldl (Meetings.cancelAllStep host) ms).meetings t = none := by
  induction ks generalizing ms with
  | nil =>
    rcases h with h | ⟨h, _⟩
    · exact h
    · cases h
  | cons k rest ih =>
    simp only [List.foldl_cons]
    apply ih _ (consistent_cancelAllStep host ms k hc)
    rcases h with h | ⟨hmem, hr, hd⟩
    · exact Or.inl (get_none_cancelAllStep host ms k t h)
    · by_cases hk : k = t
      · subst hk
        left
        unfold Meetings.cancelAllStep
        have hr2 : Map.get (ms.Related host) k = some p := hr
        simp only [hr2, hd, hH, if_true]
        rw [Meetings.meetings_cancel, Map.get_delete, hT]
        simp
      · right
        have hmem2 : t ∈ rest := by
          rcases List.mem_cons.mp hmem with e | e
          · exact absurd e.symm hk
          · exact e
        refine ⟨hmem2, ?_, ?_⟩
        · unfold Meetings.cancelAllStep
          cases hg : Map.get (ms.Related host) k with
          | none => exact hr
          | some q =>
            cases hq : ms.deref q with
            | none => simp only [hq]; exact hr
            | some m2 =>
              simp only [hq]
              split_ifs
              · obtain ⟨y, hy, hyt⟩ := hc.rel host k q hg
                rw [hq] at hy; cases hy
                rw [Meetings.relGet_cancel]
                have : ¬ t = m2.Title := by rw [hyt]; exact fun e => hk e.symm
                simp only [this, and_false, if_false]
                exact hr
              · exact hr
        · unfold Meetings.cancelAllStep
          cases hg : Map.get (ms.Related host) k with
          | none => exact hd
          | some q =>
            cases hq : ms.deref q with
            | none => simp only [hq]; exact hd
            | some m2 =>
              simp only [hq]
              split_ifs
              · rw [Meetings.deref_cancel]; exact hd
              · exact hd

/-- C12. In a reachable registry, a title whose meeting in the primary index
has host `U` is absent from the primary index after `CancelAll(U)` and after
`RemoveAll(U)`, whether or not `U` is among the participants. -/
theorem hosted_meetings_destroyed (ms : Meetings) (h : Reachable ms) (U t : String)
    (p : Nat) (M : Meeting) (hl : ms.Lookup t = some p) (hd : ms.deref p = some M)
    (hH : M.Host = U) :
    (ms.CancelAll U).Has t = false ∧ (ms.RemoveAll U).2.Has t = false := by
  have hc := consistent_of_reachable ms h
  have hT : M.Title = t := by
    obtain ⟨y, hy, hyt⟩ := hc.prim t p hl
    rw [hd] at hy; cases hy; exact hyt
  have hr : ms.relGet U t = some p := by
    rw [← hH]; exact (hc.cover t p M hl hd).1
  have hk : t ∈ Map.keys (ms.Related U) := (Map.mem_keys_iff _ _).mpr ⟨p, hr⟩
  have h1 : Map.get (ms.CancelAll U).meetings t = none :=
    cancelAll_loop_destroys U t p M hH hT _ ms hc (Or.inr ⟨hk, hr, hd⟩)
  constructor
  · unfold Meetings.Has; rw [h1]; rfl
  · unfold Meetings.Has Meetings.RemoveAll
    rw [get_none_foldl_remove U t _ _ h1]; rfl

/-- Witness for C12: the host `hana` is not among the participants. -/
theorem hosted_meetings_destroyed_witness :
    Reachable (runCalls NewMeetings [Call.Host ⟨"standup", "hana", ["pat"], 0, 10⟩]) ∧
    ((runCalls NewMeetings [Call.Host ⟨"standup", "hana", ["pat"], 0, 10⟩]).CancelAll
      "hana").Has "standup" = false ∧
    ((runCalls NewMeetings [Call.Host ⟨"standup", "hana", ["pat"], 0, 10⟩]).RemoveAll
      "hana").2.Has "standup" = false :=
  ⟨⟨_, rfl⟩, hosted_meetings_destroyed
    (runCalls NewMeetings [Call.Host ⟨"standup", "hana", ["pat"], 0, 10⟩]) ⟨_, rfl⟩
    "hana" "standup" 0 ⟨"standup", "hana", ["pat"], 0, 10⟩ (by decide) (by decide) rfl⟩

/-- C14 (the code breaks it). The claim says that `CancelAll(U)` leaves every
meeting whose host is not `U` in the primary index.  `cancel` leaves a
cancelled meeting in the bucket of its host (C6) and deletes from the
primary index by title: after `hana` hosts `standup` (with participant `pat`)
and cancels it, `quin` hosts a new `standup`; `CancelAll("hana")` then finds
the old meeting in `Related("hana")`, cancels it again and deletes the
meeting of `quin` from the primary index.  The same happens when `hana` was
listed as a participant and had left the meeting before it was cancelled. -/
theorem cancelAll_destroys_foreign_meeting :
    (Reachable (runCalls NewMeetings
        [Call.Host ⟨"standup", "hana", ["pat"], 0, 10⟩, Call.Cancel "standup",
          Call.Host ⟨"standup", "quin", ["quin", "rae"], 20, 30⟩]) ∧
      (runCalls NewMeetings
        [Call.Host ⟨"standup", "hana", ["pat"], 0, 10⟩, Call.Cancel "standup",
          Call.Host ⟨"standup", "quin", ["quin", "rae"], 20, 30⟩]).Lookup "standup" = some 1 ∧
      (runCalls NewMeetings
        [Call.Host ⟨"standup", "hana", ["pat"], 0, 10⟩, Call.Cancel "standup",
          Call.Host ⟨"standup", "quin", ["quin", "rae"], 20, 30⟩]).deref 1
            = some ⟨"standup", "quin", ["quin", "rae"], 20, 30⟩ ∧
      ((runCalls NewMeetings
        [Call.Host ⟨"standup", "hana", ["pat"], 0, 10⟩, Call.Cancel "standup",
          Call.Host ⟨"standup", "quin", ["quin", "rae"], 20, 30⟩]).CancelAll "hana").Has
            "standup" = false) ∧
    (Reachable (runCalls NewMeetings
        [Call.Host ⟨"standup", "hana", ["hana", "pat"], 0, 10⟩, Call.Remove "standup" "hana",
          Call.Cancel "standup", Call.Host ⟨"standup", "quin", ["quin", "rae"], 20, 30⟩]) ∧
      (runCalls NewMeetings
        [Call.Host ⟨"standup", "hana", ["hana", "pat"], 0, 10⟩, Call.Remove "standup" "hana",
          Call.Cancel "standup",
          Call.Host ⟨"standup", "quin", ["quin", "rae"], 20, 30⟩]).Lookup "standup" = some 1 ∧
      ((runCalls NewMeetings
        [Call.Host ⟨"standup", "hana", ["hana", "pat"], 0, 10⟩, Call.Remove "standup" "hana",
          Call.Cancel "standup",
          Call.Host ⟨"standup", "quin", ["quin", "rae"], 20, 30⟩]).CancelAll "hana").Has
            "standup" = false) := by
  refine ⟨⟨⟨_, rfl⟩, by decide, by decide, by decide⟩, ⟨⟨_, rfl⟩, by decide, by decide⟩⟩

theorem Host_into_empty (m : Meeting) (h : m.End > m.Start) :
    NewMeetings.Host m = (Err.OK, ({ NewMeetings with heap := [m] } : Meetings).host 0 m) := by
  unfold Meetings.Host
  have h2 : NewMeetings.Has m.Title = false := rfl
  have h3 : NewMeetings.hostConflict m = false := by
    unfold Meetings.hostConflict
    rw [List.any_eq_false]
    intro u _
    simp [Meetings.Related, NewMeetings, Map.get]
  simp only [h, not_true_eq_false, if_false, h2, h3]
  rfl

theorem Host_after_disjoint (m1 m2 : Meeting) (h1 : m1.End > m1.Start) (h2 : m2.End > m2.Start)
    (ht : m1.Title ≠ m2.Title) (hov : Overlapped m2.Start m2.End m1.Start m1.End = false) :
    ((NewMeetings.Host m1).2.Host m2).1 = Err.OK := by
  rw [Host_into_empty m1 h1, Host_result]
  have hHas : (({ NewMeetings with heap := [m1] } : Meetings).host 0 m1).Has m2.Title = false := by
    unfold Meetings.Has
    rw [Meetings.meetings_host, Map.get_set]
    have : ¬ m2.Title = m1.Title := fun e => ht e.symm
    simp [this, NewMeetings, Map.get]
  have hcf : ¬ (({ NewMeetings with heap := [m1] } : Meetings).host 0 m1).hostConflict m2
      = true := by
    rw [hostConflict_iff]
    rintro ⟨u, _, e, _, um, hd, ho⟩
    rw [Meetings.deref_host] at hd
    have hum : um = m1 := by
      unfold Meetings.deref at hd
      have hh : ({ NewMeetings with heap := [m1] } : Meetings).heap = [m1] := rfl
      rw [hh] at hd
      cases hq : e.2 with
      | zero => rw [hq] at hd; simpa using hd.symm
      | succ n => rw [hq] at hd; simp at hd
    subst hum
    rw [hov] at ho
    cases ho
  simp only [h2, not_true_eq_false, if_false, hHas, hcf]
  simp

/-- C15. Back-to-back meetings are not conflicts: for instants `a < b < c`, a
user `U` and two different titles, hosting `[a, b)` with participant `U`
into the empty registry and then `[b, c)` with participant `U` returns `OK`
twice, and so does hosting the two in the opposite order; hosts and further
participants are arbitrary. -/
theorem adjacent_meetings_do_not_conflict (a b c : Int) (hab : a < b) (hbc : b < c)
    (U h1 h2 t1 t2 : String) (ps1 ps2 : Users) (ht : t1 ≠ t2) :
    (NewMeetings.Host ⟨t1, h1, U :: ps1, a, b⟩).1 = Err.OK ∧
    ((NewMeetings.Host ⟨t1, h1, U :: ps1, a, b⟩).2.Host ⟨t2, h2, U :: ps2, b, c⟩).1 = Err.OK ∧
    (NewMeetings.Host ⟨t2, h2, U :: ps2, b, c⟩).1 = Err.OK ∧
    ((NewMeetings.Host ⟨t2, h2, U :: ps2, b, c⟩).2.Host ⟨t1, h1, U :: ps1, a, b⟩).1 = Err.OK := by
  refine ⟨?_, ?_, ?_, ?_⟩
  · rw [Host_into_empty _ hab]
  · exact Host_after_disjoint ⟨t1, h1, U :: ps1, a, b⟩ ⟨t2, h2, U :: ps2, b, c⟩ hab hbc ht
      (by simp [Overlapped])
  · rw [Host_into_empty _ hbc]
  · exact Host_after_disjoint ⟨t2, h2, U :: ps2, b, c⟩ ⟨t1, h1, U :: ps1, a, b⟩ hbc hab
      (fun e => ht e.symm) (by simp [Overlapped])

/-- Witness for C15: the ranges `[10, 11)` and `[11, 12)` of the specification. -/
theorem adjacent_meetings_do_not_conflict_witness :
    (10 : Int) < 11 ∧ (11 : Int) < 12 ∧ "standup" ≠ "review" ∧
    ((NewMeetings.Host ⟨"standup", "hana", ["uma", "hana"], 10, 11⟩).2.Host
      ⟨"review", "pat", ["uma"], 11, 12⟩).1 = Err.OK :=
  ⟨by decide, by decide, by decide,
    (adjacent_meetings_do_not_conflict 10 11 12 (by decide) (by decide)
      "uma" "hana" "pat" "standup" "review" ["hana"] [] (by decide)).2.1⟩

/-- C17. `Overlapped` is symmetric in its two ranges, it is the test
`startA < endB && startB < endA`, and the scan of `Add` (stored meeting
first) is the scan of `Host` (new meeting first) for the single participant
`user`. -/
theorem Overlapped_symmetric (a b c d : Int) :
    Overlapped a b c d = Overlapped c d a b ∧
    (Overlapped a b c d = true ↔ a < d ∧ c < b) ∧
    (∀ (ms : Meetings) (user : String) (m : Meeting),
      ms.addConflict user m = ms.hostConflict { m with Participants := [user] }) ∧
    (∀ (ms : Meetings) (user : String) (m : Meeting),
      AddConflictExists ms user m ↔ HostConflictExists ms { m with Participants := [user] }) := by
  have sym : ∀ w x y z : Int, Overlapped w x y z = Overlapped y z w x := by
    intro w x y z
    unfold Overlapped
    exact Bool.and_comm _ _
  have scan : ∀ (ms : Meetings) (user : String) (m : Meeting),
      ms.addConflict user m = ms.hostConflict { m with Participants := [user] } := by
    intro ms user m
    unfold Meetings.addConflict Meetings.hostConflict
    simp only [List.any_cons, List.any_nil, Bool.or_false]
    congr 1
    funext e
    cases ms.deref e.2 with
    | none => rfl
    | some um => exact sym _ _ _ _
  refine ⟨sym a b c d, ?_, scan, ?_⟩
  · simp [Overlapped]
  · intro ms user m
    rw [← addConflict_iff, ← hostConflict_iff, scan]

/-- C19. In a reachable registry, when the host `H` of a stored meeting is
not among its participants, the meeting is itself in `Related(H)` and
overlaps its own range, so `Add(t, H)` returns `TimeConflict` and changes
nothing. -/
theorem host_cannot_be_added (ms : Meetings) (h : Reachable ms) (t : String) (p : Nat)
    (M : Meeting) (hl : ms.Lookup t = some p) (hd : ms.deref p = some M)
    (hH : M.Host ∉ M.Participants) :
    ms.Add t M.Host = (Err.TimeConflict, ms) ∧
    ms.relGet M.Host t = some p ∧
    Overlapped M.Start M.End M.Start M.End = true := by
  have hc := consistent_of_reachable ms h
  have hr : ms.relGet M.Host t = some p := (hc.cover t p M hl hd).1
  have hov : Overlapped M.Start M.End M.Start M.End = true := by
    have := hc.range p M hd
    simp [Overlapped, this]
  refine ⟨?_, hr, hov⟩
  rw [Add_of_get ms t M.Host p M hl hd]
  have h1 : ¬ Users.Lookup M.Participants M.Host = true :=
    fun e => hH ((Users_Lookup_iff _ _).mp e)
  have h2 : ms.addConflict M.Host M = true := by
    rw [addConflict_iff]
    exact ⟨(t, p), Map.mem_of_get_eq_some _ _ _ hr, M, hd, hov⟩
  rw [if_neg h1, if_pos h2]

/-- Witness for C19: the host `hana` left the meeting while `pat` remained. -/
theorem host_cannot_be_added_witness :
    Reachable (runCalls NewMeetings
      [Call.Host ⟨"standup", "hana", ["hana", "pat"], 0, 10⟩, Call.Remove "standup" "hana"]) ∧
    (runCalls NewMeetings
      [Call.Host ⟨"standup", "hana", ["hana", "pat"], 0, 10⟩,
        Call.Remove "standup" "hana"]).Add "standup" "hana" =
      (Err.TimeConflict, runCalls NewMeetings
        [Call.Host ⟨"standup", "hana", ["hana", "pat"], 0, 10⟩, Call.Remove "standup" "hana"]) :=
  ⟨⟨_, rfl⟩, (host_cannot_be_added
    (runCalls NewMeetings
      [Call.Host ⟨"standup", "hana", ["hana", "pat"], 0, 10⟩, Call.Remove "standup" "hana"])
    ⟨_, rfl⟩ "standup" 0 ⟨"standup", "hana", ["pat"], 0, 10⟩ (by decide) (by decide)
    (by decide)).1⟩

/-! ### No double booking when hosts list themselves -/

theorem Overlapped_comm (w x y z : Int) : Overlapped w x y z = Overlapped y z w x := by
  unfold Overlapped
  exact Bool.and_comm _ _

theorem noDoubleBooking_insert (ms ms2 : Meetings) (us : String → Prop) (title : String)
    (s e : Int) (h : NoDoubleBooking ms)
    (hrel : ∀ u t q, ms2.relGet u t = some q → (us u ∧ t = title) ∨ ms.relGet u t = some q)
    (hnew : ∀ u t q a2, ms2.relGet u t = some q → ms2.deref q = some a2 → us u → t = title →
      a2.Start = s ∧ a2.End = e)
    (hold : ∀ u t q a2, ms2.relGet u t = some q → ms2.deref q = some a2 →
      ms.relGet u t = some q → ∃ a, ms.deref q = some a ∧ a.Start = a2.Start ∧ a.End = a2.End)
    (hchk : ∀ u t q a, us u → t ≠ title → ms.relGet u t = some q → ms.deref q = some a →
      Overlapped s e a.Start a.End = false) :
    NoDoubleBooking ms2 := by
  intro u t1 t2 p1 p2 a b hne h1 h2 ha hb
  rcases hrel u t1 p1 h1 with ⟨hu1, ht1⟩ | ho1
  · rcases hrel u t2 p2 h2 with ⟨_, ht2⟩ | ho2
    · exact absurd (ht1.trans ht2.symm) hne
    · obtain ⟨b0, hb0, hbs, hbe⟩ := hold u t2 p2 b h2 hb ho2
      obtain ⟨has, hae⟩ := hnew u t1 p1 a h1 ha hu1 ht1
      have ht2 : t2 ≠ title := fun e2 => hne (ht1.trans e2.symm)
      have := hchk u t2 p2 b0 hu1 ht2 ho2 hb0
      rw [has, hae, ← hbs, ← hbe]
      exact this
  · obtain ⟨a0, ha0, has, hae⟩ := hold u t1 p1 a h1 ha ho1
    rcases hrel u t2 p2 h2 with ⟨hu2, ht2⟩ | ho2
    · obtain ⟨hbs, hbe⟩ := hnew u t2 p2 b h2 hb hu2 ht2
      have ht1 : t1 ≠ title := fun e2 => hne (e2.trans ht2.symm)
      have := hchk u t1 p1 a0 hu2 ht1 ho1 ha0
      rw [Overlapped_comm, hbs, hbe, ← has, ← hae]
      exact this
    · obtain ⟨b0, hb0, hbs, hbe⟩ := hold u t2 p2 b h2 hb ho2
      have := h u t1 t2 p1 p2 a0 b0 hne ho1 ho2 ha0 hb0
      rw [← has, ← hae, ← hbs, ← hbe]
      exact this

theorem noDoubleBooking_NewMeetings : NoDoubleBooking NewMeetings := by
  intro u t1 t2 p1 p2 a b _ h1
  simp [NewMeetings, Meetings.relGet, Meetings.Related, Map.get] at h1

theorem noDoubleBooking_cancel (ms : Meetings) (m : Meeting) (h : NoDoubleBooking ms) :
    NoDoubleBooking (ms.cancel m) := by
  apply noDoubleBooking_insert ms (ms.cancel m) (fun _ => False) "" 0 0 h
  · intro u t q hq
    rw [Meetings.relGet_cancel] at hq
    split_ifs at hq
    exact Or.inr hq
  · intro u t q a2 _ _ hf; exact hf.elim
  · intro u t q a2 _ hd _
    rw [Meetings.deref_cancel] at hd
    exact ⟨a2, hd, rfl, rfl⟩
  · intro u t q a hf; exact hf.elim

theorem noDoubleBooking_remove (ms : Meetings) (p : Nat) (user : String)
    (h : NoDoubleBooking ms) : NoDoubleBooking (ms.remove p user) := by
  cases hd : ms.deref p with
  | none => unfold Meetings.remove; simp only [hd]; exact h
  | some m =>
    apply noDoubleBooking_insert ms (ms.remove p user) (fun _ => False) "" 0 0 h
    · intro u t q hq
      rw [Meetings.relGet_remove ms p user m hd] at hq
      split_ifs at hq
      exact Or.inr hq
    · intro u t q a2 _ _ hf; exact hf.elim
    · intro u t q a2 _ hd2 _
      rw [Meetings.deref_remove ms p user m hd] at hd2
      split_ifs at hd2 with hq
      · cases hd2
        subst hq
        exact ⟨m, hd, rfl, rfl⟩
      · exact ⟨a2, hd2, rfl, rfl⟩
    · intro u t q a hf; exact hf.elim

theorem noDoubleBooking_cancelAllStep (host : String) (ms : Meetings) (k : String)
    (h : NoDoubleBooking ms) : NoDoubleBooking (Meetings.cancelAllStep host ms k) := by
  unfold Meetings.cancelAllStep
  split
  · exact h
  · split
    · exact h
    · split_ifs
      · exact noDoubleBooking_cancel ms _ h
      · exact h

theorem noDoubleBooking_CancelAll (ms : Meetings) (host : String) (h : NoDoubleBooking ms) :
    NoDoubleBooking (ms.CancelAll host) := by
  unfold Meetings.CancelAll
  generalize Map.keys (ms.Related host) = ks
  induction ks generalizing ms with
  | nil => exact h
  | cons k rest ih => exact ih _ (noDoubleBooking_cancelAllStep host ms k h)

theorem noDoubleBooking_foldl_remove (user : String) (qs : List Nat) (ms : Meetings)
    (h : NoDoubleBooking ms) :
    NoDoubleBooking (qs.foldl (fun acc q => acc.remove q user) ms) := by
  induction qs generalizing ms with
  | nil => exact h
  | cons q rest ih => exact ih _ (noDoubleBooking_remove ms q user h)

theorem noDoubleBooking_RemoveAll (ms : Meetings) (user : String) (h : NoDoubleBooking ms) :
    NoDoubleBooking (ms.RemoveAll user).2 := by
  unfold Meetings.RemoveAll
  exact noDoubleBooking_foldl_remove user _ _ (noDoubleBooking_CancelAll ms user h)

theorem noDoubleBooking_Cancel (ms : Meetings) (title : String) (h : NoDoubleBooking ms) :
    NoDoubleBooking (ms.Cancel title).2 := by
  unfold Meetings.Cancel
  split
  · exact h
  · split
    · exact h
    · exact noDoubleBooking_cancel ms _ h

theorem noDoubleBooking_Remove (ms : Meetings) (title user : String) (h : NoDoubleBooking ms) :
    NoDoubleBooking (ms.Remove title user).2 := by
  unfold Meetings.Remove
  split
  · exact h
  · split
    · exact h
    · split_ifs
      · exact h
      · exact noDoubleBooking_remove ms _ user h

theorem Host_fail_state (ms : Meetings) (m : Meeting) (h : (ms.Host m).1 ≠ Err.OK) :
    (ms.Host m).2 = ms := by
  revert h
  unfold Meetings.Host
  by_cases h1 : m.End > m.Start
  · simp only [h1, not_true_eq_false, if_false]
    split_ifs <;> simp
  · simp only [h1, not_false_eq_true, if_true]
    intro _; trivial

theorem Host_ok_no_conflict (ms : Meetings) (m : Meeting) (h : (ms.Host m).1 = Err.OK) :
    ¬ HostConflictExists ms m := by
  rw [← hostConflict_iff]
  rw [Host_result] at h
  by_cases h1 : m.End > m.Start <;> by_cases h2 : ms.Has m.Title = true <;>
    by_cases h3 : ms.hostConflict m = true <;> simp [h1, h2, h3] at h ⊢

theorem noDoubleBooking_Host (ms : Meetings) (m : Meeting) (hc : Consistent ms)
    (h : NoDoubleBooking ms) (hl : m.Host ∈ m.Participants) :
    NoDoubleBooking (ms.Host m).2 := by
  by_cases hok : (ms.Host m).1 = Err.OK
  · have hnc := Host_ok_no_conflict ms m hok
    rw [Host_ok_state ms m hok]
    have eR : ∀ u t, ({ ms with heap := ms.heap ++ [m] } : Meetings).relGet u t = ms.relGet u t :=
      fun _ _ => rfl
    apply noDoubleBooking_insert ms _ (fun u => u ∈ m.Participants) m.Title m.Start m.End h
    · intro u t q hq
      rw [Meetings.relGet_host, eR] at hq
      split_ifs at hq with hcond
      · left
        rcases hcond.1 with e | e
        · exact ⟨e ▸ hl, hcond.2⟩
        · exact ⟨e, hcond.2⟩
      · exact Or.inr hq
    · intro u t q a2 hq hd hu ht
      rw [Meetings.relGet_host, eR] at hq
      have hcond : (u = m.Host ∨ u ∈ m.Participants) ∧ t = m.Title := ⟨Or.inr hu, ht⟩
      rw [if_pos hcond] at hq
      cases hq
      rw [Meetings.deref_host, Meetings.deref_alloc] at hd
      simp only [if_true, Option.some.injEq] at hd
      subst hd
      exact ⟨rfl, rfl⟩
    · intro u t q a2 _ hd ho
      obtain ⟨y, hy, _⟩ := hc.rel u t q ho
      have hlt := Meetings.deref_lt ms q y hy
      rw [Meetings.deref_host, Meetings.deref_alloc] at hd
      simp only [Nat.ne_of_lt hlt, if_false] at hd
      exact ⟨a2, hd, rfl, rfl⟩
    · intro u t q a hu _ hq hd
      by_contra hne
      have hov : Overlapped m.Start m.End a.Start a.End = true := by simpa using hne
      exact hnc ⟨u, hu, (t, q), Map.mem_of_get_eq_some _ _ _ hq, a, hd, hov⟩
  · rw [Host_fail_state ms m hok]
    exact h

theorem noDoubleBooking_Add (ms : Meetings) (title user : String) (hc : Consistent ms)
    (h : NoDoubleBooking ms) : NoDoubleBooking (ms.Add title user).2 := by
  cases hg : Map.get ms.meetings title with
  | none => rw [Add_of_absent ms title user hg]; exact h
  | some p =>
    obtain ⟨M, hd, hMt⟩ := hc.prim title p hg
    rw [Add_of_get ms title user p M hg hd]
    split_ifs with h1 h2
    · exact h
    · exact h
    · have hnc : ¬ AddConflictExists ms user M := fun e => h2 ((addConflict_iff ms user M).mpr e)
      have eD : ∀ q, (({ ms with heap := ms.heap.set p { M with Participants := Users.Add M.Participants user } } :
          Meetings).addRelatedMeeting user p M.Title).deref q =
          if q = p then some { M with Participants := Users.Add M.Participants user }
          else ms.deref q := by
        intro q
        rw [← Meetings.deref_set ms p M _ hd q]
        unfold Meetings.deref
        rw [Meetings.heap_addRelatedMeeting]
      have eR : ∀ u t, (({ ms with heap := ms.heap.set p { M with Participants := Users.Add M.Participants user } } :
          Meetings).addRelatedMeeting user p M.Title).relGet u t =
          if u = user ∧ t = M.Title then some p else ms.relGet u t := by
        intro u t
        rw [Meetings.relGet_addRelatedMeeting]
        rfl
      apply noDoubleBooking_insert ms _ (fun u => u = user) M.Title M.Start M.End h
      · intro u t q hq
        rw [eR] at hq
        split_ifs at hq with hcond
        · exact Or.inl hcond
        · exact Or.inr hq
      · intro u t q a2 hq hd2 hu ht
        rw [eR, if_pos ⟨hu, ht⟩] at hq
        cases hq
        rw [eD] at hd2
        simp only [if_true, Option.some.injEq] at hd2
        subst hd2
        exact ⟨rfl, rfl⟩
      · intro u t q a2 _ hd2 _
        rw [eD] at hd2
        split_ifs at hd2 with hq
        · cases hd2
          subst hq
          exact ⟨M, hd, rfl, rfl⟩
        · exact ⟨a2, hd2, rfl, rfl⟩
      · intro u t q a hu _ hq hda
        by_contra hne
        have hov : Overlapped M.Start M.End a.Start a.End = true := by simpa using hne
        rw [Overlapped_comm] at hov
        subst hu
        exact hnc ⟨(t, q), Map.mem_of_get_eq_some _ _ _ hq, a, hda, hov⟩

theorem noDoubleBooking_applyCall (ms : Meetings) (c : Call) (hc : Consistent ms)
    (h : NoDoubleBooking ms) (hl : c.hostListed = true) : NoDoubleBooking (applyCall ms c) := by
  cases c with
  | Host m => exact noDoubleBooking_Host ms m hc h (of_decide_eq_true hl)
  | Cancel t => exact noDoubleBooking_Cancel ms t h
  | CancelAll u => exact noDoubleBooking_CancelAll ms u h
  | Add t u => exact noDoubleBooking_Add ms t u hc h
  | Remove t u => exact noDoubleBooking_Remove ms t u h
  | RemoveAll u => exact noDoubleBooking_RemoveAll ms u h

theorem noDoubleBooking_runCalls (cs : List Call) (ms : Meetings) (hc : Consistent ms)
    (h : NoDoubleBooking ms) (hl : ∀ c ∈ cs, c.hostListed = true) :
    NoDoubleBooking (runCalls ms cs) := by
  induction cs generalizing ms with
  | nil => exact h
  | cons c rest ih =>
    exact ih _ (consistent_applyCall ms c hc)
      (noDoubleBooking_applyCall ms c hc h (hl c (List.mem_cons_self _ _)))
      (fun c2 hc2 => hl c2 (List.mem_cons_of_mem _ hc2))

/-- C18. In every registry reachable from the empty one by calls in which
each hosted meeting lists its host among its participants, no relation
bucket holds, under two different titles, two meetings whose ranges overlap. -/
theorem no_double_booking_when_hosts_listed (ms : Meetings) (h : ReachableHostListed ms) :
    NoDoubleBooking ms := by
  obtain ⟨cs, hl, rfl⟩ := h
  exact noDoubleBooking_runCalls cs _ consistent_NewMeetings noDoubleBooking_NewMeetings hl

/-- Witness for C18: two adjacent meetings of `hana`, and `pat` added to one. -/
theorem no_double_booking_when_hosts_listed_witness :
    ReachableHostListed (runCalls NewMeetings
      [Call.Host ⟨"standup", "hana", ["hana"], 0, 10⟩,
        Call.Host ⟨"review", "hana", ["hana", "quin"], 10, 20⟩, Call.Add "standup" "pat"]) ∧
    NoDoubleBooking (runCalls NewMeetings
      [Call.Host ⟨"standup", "hana", ["hana"], 0, 10⟩,
        Call.Host ⟨"review", "hana", ["hana", "quin"], 10, 20⟩, Call.Add "standup" "pat"]) :=
  ⟨⟨_, by decide, rfl⟩, no_double_booking_when_hosts_listed _ ⟨_, by decide, rfl⟩⟩

/-! ### `RemoveAll` and the meetings the user attends -/

theorem Users_Remove_idem (us : Users) (u : String) :
    Users.Remove (Users.Remove us u) u = Users.Remove us u := by
  unfold Users.Remove
  rw [List.filter_filter]
  simp

theorem cancelAll_loop_keeps (host t : String) (p : Nat) (M : Meeting)
    (hU : host ∈ M.Participants) (hH : M.Host ≠ host) (ks : List String) (ms : Meetings)
    (hc : Consistent ms) (hg : Map.get ms.meetings t = some p) (hd : ms.deref p = some M) :
    Map.get (ks.foldl (Meetings.cancelAllStep host) ms).meetings t = some p ∧
    (ks.foldl (Meetings.cancelAllStep host) ms).deref p = some M := by
  induction ks generalizing ms with
  | nil => exact ⟨hg, hd⟩
  | cons k rest ih =>
    simp only [List.foldl_cons]
    have hstep : Map.get (Meetings.cancelAllStep host ms k).meetings t = some p ∧
        (Meetings.cancelAllStep host ms k).deref p = some M := by
      unfold Meetings.cancelAllStep
      cases hk : Map.get (ms.Related host) k with
      | none => exact ⟨hg, hd⟩
      | some q =>
        cases hq : ms.deref q with
        | none => simp only [hq]; exact ⟨hg, hd⟩
        | some m2 =>
          simp only [hq]
          split_ifs with hh
          · have hm2t : m2.Title = k := by
              obtain ⟨y, hy, hyt⟩ := hc.rel host k q hk
              rw [hq] at hy; cases hy; exact hyt
            have hne : ¬ t = m2.Title := by
              intro e
              rw [hm2t] at e
              subst e
              have hr : ms.relGet host t = some p := (hc.cover t p M hg hd).2 host hU
              have hk2 : ms.relGet host t = some q := hk
              rw [hr] at hk2
              cases hk2
              rw [hd] at hq
              cases hq
              exact hH hh
            refine ⟨?_, ?_⟩
            · rw [Meetings.meetings_cancel, Map.get_delete]
              simp only [hne, if_false]
              exact hg
            · rw [Meetings.deref_cancel]; exact hd
          · exact ⟨hg, hd⟩
    exact ih _ (consistent_cancelAllStep host ms k hc) hstep.1 hstep.2

theorem foldl_remove_keeps (user t : String) (p : Nat) (qs : List Nat) (acc : Meetings)
    (Mc : Meeting)
    (hT : ∀ q ∈ qs, q ≠ p → ∀ m, acc.deref q = some m → m.Title ≠ t)
    (hg : Map.get acc.meetings t = some p) (hd : acc.deref p = some Mc)
    (hne : Users.Remove Mc.Participants user ≠ []) :
    Map.get (qs.foldl (fun a q => a.remove q user) acc).meetings t = some p ∧
    (qs.foldl (fun a q => a.remove q user) acc).deref p =
      some (if p ∈ qs then { Mc with Participants := Users.Remove Mc.Participants user }
        else Mc) := by
  induction qs generalizing acc Mc with
  | nil => exact ⟨hg, by simpa using hd⟩
  | cons q rest ih =>
    simp only [List.foldl_cons]
    by_cases hq : q = p
    · subst hq
      have hd2 : (acc.remove q user).deref q =
          some { Mc with Participants := Users.Remove Mc.Participants user } := by
        rw [Meetings.deref_remove acc q user Mc hd]; simp
      have hg2 : Map.get (acc.remove q user).meetings t = some q := by
        rw [Meetings.meetings_remove acc q user Mc hd, if_neg hne]; exact hg
      have hT2 : ∀ x ∈ rest, x ≠ q → ∀ m, (acc.remove q user).deref x = some m → m.Title ≠ t := by
        intro x hx hxq m hm
        rw [Meetings.deref_remove acc q user Mc hd] at hm
        simp only [hxq, if_false] at hm
        exact hT x (List.mem_cons_of_mem _ hx) hxq m hm
      have hne2 : Users.Remove (Users.Remove Mc.Participants user) user ≠ [] := by
        rw [Users_Remove_idem]; exact hne
      obtain ⟨r1, r2⟩ := ih (acc.remove q user) _ hT2 hg2 hd2 hne2
      refine ⟨r1, ?_⟩
      rw [r2]
      simp only [List.mem_cons, true_or, if_true]
      split_ifs
      · simp only [Users_Remove_idem]
      · rfl
    · have hkeep : Map.get (acc.remove q user).meetings t = some p ∧
          (acc.remove q user).deref p = some Mc ∧
          ∀ x ∈ rest, x ≠ p → ∀ m, (acc.remove q user).deref x = some m → m.Title ≠ t := by
        cases hdq : acc.deref q with
        | none =>
          have e : acc.remove q user = acc := by unfold Meetings.remove; simp only [hdq]
          rw [e]
          exact ⟨hg, hd, fun x hx => hT x (List.mem_cons_of_mem _ hx)⟩
        | some mq =>
          have hmq : mq.Title ≠ t := hT q (List.mem_cons_self _ _) hq mq hdq
          refine ⟨?_, ?_, ?_⟩
          · rw [Meetings.meetings_remove acc q user mq hdq]
            split_ifs
            · rw [Map.get_delete]
              have : ¬ t = mq.Title := fun e => hmq e.symm
              simp only [this, if_false]
              exact hg
            · exact hg
          · rw [Meetings.deref_remove acc q user mq hdq]
            have : ¬ p = q := fun e => hq e.symm
            simp only [this, if_false]
            exact hd
          · intro x hx hxp m hm
            rw [Meetings.deref_remove acc q user mq hdq] at hm
            split_ifs at hm with hxq
            · cases hm
              exact hmq
            · exact hT x (List.mem_cons_of_mem _ hx) hxp m hm
      obtain ⟨r1, r2⟩ := ih (acc.remove q user) Mc hkeep.2.2 hkeep.1 hkeep.2.1 hne
      refine ⟨r1, ?_⟩
      rw [r2]
      have hpq : ¬ p = q := fun e => hq e.symm
      simp only [List.mem_cons, hpq, false_or]

theorem foldl_remove_prunes (user t : String) (p : Nat) (qs : List Nat) (acc : Meetings)
    (Mc : Meeting) (hin : p ∈ qs) (hd : acc.deref p = some Mc) (hT : Mc.Title = t)
    (he : Users.Remove Mc.Participants user = []) :
    Map.get (qs.foldl (fun a q => a.remove q user) acc).meetings t = none := by
  induction qs generalizing acc with
  | nil => cases hin
  | cons q rest ih =>
    simp only [List.foldl_cons]
    by_cases hq : q = p
    · subst hq
      apply get_none_foldl_remove
      rw [Meetings.meetings_remove acc q user Mc hd, if_pos he, Map.get_delete, hT]
      simp
    · have hin2 : p ∈ rest := by
        rcases List.mem_cons.mp hin with e | e
        · exact absurd e.symm hq
        · exact e
      apply ih _ hin2
      cases hdq : acc.deref q with
      | none =>
        have e : acc.remove q user = acc := by unfold Meetings.remove; simp only [hdq]
        rw [e]; exact hd
      | some mq =>
        rw [Meetings.deref_remove acc q user mq hdq]
        have : ¬ p = q := fun e => hq e.symm
        simp only [this, if_false]
        exact hd

/-- C13, counterexample. `hana` is the only participant of a meeting hosted
by `quin`; `RemoveAll("hana")` empties the participant set, and the meeting
is pruned from the primary index instead of staying without `hana`. -/
theorem removeAll_prunes_sole_participant :
    Reachable (runCalls NewMeetings [Call.Host ⟨"standup", "quin", ["hana"], 0, 10⟩]) ∧
    (runCalls NewMeetings [Call.Host ⟨"standup", "quin", ["hana"], 0, 10⟩]).Lookup "standup"
      = some 0 ∧
    (runCalls NewMeetings [Call.Host ⟨"standup", "quin", ["hana"], 0, 10⟩]).deref 0
      = some ⟨"standup", "quin", ["hana"], 0, 10⟩ ∧
    "hana" ∈ (⟨"standup", "quin", ["hana"], 0, 10⟩ : Meeting).Participants ∧
    (⟨"standup", "quin", ["hana"], 0, 10⟩ : Meeting).Host ≠ "hana" ∧
    ((runCalls NewMeetings [Call.Host ⟨"standup", "quin", ["hana"], 0, 10⟩]).RemoveAll
      "hana").2.Has "standup" = false := by
  refine ⟨⟨_, rfl⟩, by decide, by decide, by decide, by decide, by decide⟩

/-- C13, amended. In a reachable registry, a meeting of which `U` is a
participant but not the host, and which has a participant other than `U`,
is still in the primary index after `RemoveAll(U)`, as the same object with
the same title, host and times and with the participants it had minus `U`;
a meeting whose only participant is `U` is pruned from the primary index. -/
theorem removeAll_keeps_attended_meetings (ms : Meetings) (h : Reachable ms) (U t : String)
    (p : Nat) (M : Meeting) (hl : ms.Lookup t = some p) (hd : ms.deref p = some M)
    (hU : U ∈ M.Participants) (hH : M.Host ≠ U) :
    ((∃ v ∈ M.Participants, v ≠ U) →
      (ms.RemoveAll U).2.Lookup t = some p ∧
      (ms.RemoveAll U).2.deref p =
        some { M with Participants := Users.Remove M.Participants U } ∧
      (∀ x, x ∈ Users.Remove M.Participants U ↔ x ∈ M.Participants ∧ x ≠ U)) ∧
    ((∀ v ∈ M.Participants, v = U) → (ms.RemoveAll U).2.Has t = false) := by
  have hc := consistent_of_reachable ms h
  have hT : M.Title = t := by
    obtain ⟨y, hy, hyt⟩ := hc.prim t p hl
    rw [hd] at hy; cases hy; exact hyt
  have hc1 := consistent_CancelAll ms U hc
  obtain ⟨hg1, hd1⟩ := cancelAll_loop_keeps U t p M hU hH (Map.keys (ms.Related U)) ms hc hl hd
  have hg1b : Map.get (ms.CancelAll U).meetings t = some p := hg1
  have hd1b : (ms.CancelAll U).deref p = some M := hd1
  have hr1 : (ms.CancelAll U).relGet U t = some p := (hc1.cover t p M hg1b hd1b).2 U hU
  have hin : p ∈ ((ms.CancelAll U).Related U).map Prod.snd :=
    List.mem_map.mpr ⟨(t, p), Map.mem_of_get_eq_some _ _ _ hr1, rfl⟩
  constructor
  · rintro ⟨v, hv, hvU⟩
    have hne : Users.Remove M.Participants U ≠ [] := by
      intro e
      have : v ∈ Users.Remove M.Participants U := (Meetings.mem_Users_Remove _ _ _).mpr ⟨hv, hvU⟩
      rw [e] at this
      cases this
    have hTq : ∀ q ∈ ((ms.CancelAll U).Related U).map Prod.snd, q ≠ p →
        ∀ m, (ms.CancelAll U).deref q = some m → m.Title ≠ t := by
      intro q hq hqp m hm e
      obtain ⟨⟨k, q2⟩, hmem, hq2⟩ := List.mem_map.mp hq
      simp only at hq2
      subst hq2
      have hrk := Map.get_eq_some_of_mem _ _ _ (hc1.nodup U) hmem
      obtain ⟨y, hy, hyt⟩ := hc1.rel U k q2 hrk
      rw [hm] at hy; cases hy
      rw [e] at hyt
      subst hyt
      have hrk2 : (ms.CancelAll U).relGet U t = some q2 := hrk
      rw [hr1] at hrk2
      cases hrk2
      exact hqp rfl
    obtain ⟨r1, r2⟩ := foldl_remove_keeps U t p _ (ms.CancelAll U) M hTq hg1b hd1b hne
    rw [if_pos hin] at r2
    exact ⟨r1, r2, Meetings.mem_Users_Remove _ _⟩
  · intro hall
    have he : Users.Remove M.Participants U = [] := by
      unfold Users.Remove
      rw [List.filter_eq_nil_iff]
      intro a ha
      simp [hall a ha]
    have := foldl_remove_prunes U t p _ (ms.CancelAll U) M hin hd1b hT he
    unfold Meetings.Has Meetings.RemoveAll
    rw [this]; rfl

/-- Witness for C13 as amended: `hana` attends a meeting of `quin` with `pat`. -/
theorem removeAll_keeps_attended_meetings_witness :
    Reachable (runCalls NewMeetings [Call.Host ⟨"standup", "quin", ["quin", "hana", "pat"], 0, 10⟩]) ∧
    ((runCalls NewMeetings
      [Call.Host ⟨"standup", "quin", ["quin", "hana", "pat"], 0, 10⟩]).RemoveAll
        "hana").2.deref 0 = some ⟨"standup", "quin", ["quin", "pat"], 0, 10⟩ :=
  ⟨⟨_, rfl⟩, ((removeAll_keeps_attended_meetings
    (runCalls NewMeetings [Call.Host ⟨"standup", "quin", ["quin", "hana", "pat"], 0, 10⟩])
    ⟨_, rfl⟩ "hana" "standup" 0 ⟨"standup", "quin", ["quin", "hana", "pat"], 0, 10⟩
    (by decide) (by decide) (by decide) (by decide)).1 ⟨"pat", by decide, by decide⟩).2.1⟩

/-! ### The snapshot codec -/

theorem primaryNodup_remove (ms : Meetings) (q : Nat) (user : String)
    (h : (Map.keys ms.meetings).Nodup) : (Map.keys (ms.remove q user).meetings).Nodup := by
  cases hd : ms.deref q with
  | none => unfold Meetings.remove; simp only [hd]; exact h
  | some m =>
    rw [Meetings.meetings_remove ms q user m hd]
    split_ifs
    · exact Map.keys_delete_nodup _ _ h
    · exact h

theorem primaryNodup_cancelAllStep (host : String) (ms : Meetings) (k : String)
    (h : (Map.keys ms.meetings).Nodup) :
    (Map.keys (Meetings.cancelAllStep host ms k).meetings).Nodup := by
  unfold Meetings.cancelAllStep
  split
  · exact h
  · split
    · exact h
    · split_ifs
      · rw [Meetings.meetings_cancel]; exact Map.keys_delete_nodup _ _ h
      · exact h

theorem primaryNodup_CancelAll (ms : Meetings) (host : String)
    (h : (Map.keys ms.meetings).Nodup) : (Map.keys (ms.CancelAll host).meetings).Nodup := by
  unfold Meetings.CancelAll
  generalize Map.keys (ms.Related host) = ks
  induction ks generalizing ms with
  | nil => exact h
  | cons k rest ih => exact ih _ (primaryNodup_cancelAllStep host ms k h)

theorem primaryNodup_foldl_remove (user : String) (qs : List Nat) (ms : Meetings)
    (h : (Map.keys ms.meetings).Nodup) :
    (Map.keys (qs.foldl (fun acc q => acc.remove q user) ms).meetings).Nodup := by
  induction qs generalizing ms with
  | nil => exact h
  | cons q rest ih => exact ih _ (primaryNodup_remove ms q user h)

theorem primaryNodup_applyCall (ms : Meetings) (c : Call)
    (h : (Map.keys ms.meetings).Nodup) : (Map.keys (applyCall ms c).meetings).Nodup := by
  cases c with
  | Host m =>
    show (Map.keys (ms.Host m).2.meetings).Nodup
    by_cases hok : (ms.Host m).1 = Err.OK
    · rw [Host_ok_state ms m hok, Meetings.meetings_host]
      exact Map.keys_set_nodup _ _ _ h
    · rw [Host_fail_state ms m hok]; exact h
  | Cancel t =>
    show (Map.keys (ms.Cancel t).2.meetings).Nodup
    unfold Meetings.Cancel
    split
    · exact h
    · split
      · exact h
      · show (Map.keys (ms.cancel _).meetings).Nodup
        rw [Meetings.meetings_cancel]; exact Map.keys_delete_nodup _ _ h
  | CancelAll u => exact primaryNodup_CancelAll ms u h
  | Add t u =>
    show (Map.keys (ms.Add t u).2.meetings).Nodup
    unfold Meetings.Add
    split
    · exact h
    · split
      · exact h
      · split_ifs
        · exact h
        · exact h
        · show (Map.keys (Meetings.addRelatedMeeting _ _ _ _).meetings).Nodup
          rw [Meetings.meetings_addRelatedMeeting]; exact h
  | Remove t u =>
    show (Map.keys (ms.Remove t u).2.meetings).Nodup
    unfold Meetings.Remove
    split
    · exact h
    · split
      · exact h
      · split_ifs
        · exact h
        · exact primaryNodup_remove ms _ u h
  | RemoveAll u =>
    show (Map.keys (ms.RemoveAll u).2.meetings).Nodup
    unfold Meetings.RemoveAll
    exact primaryNodup_foldl_remove u _ _ (primaryNodup_CancelAll ms u h)

theorem primaryNodup_of_reachable (ms : Meetings) (h : Reachable ms) :
    (Map.keys ms.meetings).Nodup := by
  obtain ⟨cs, rfl⟩ := h
  have gen : ∀ (cs : List Call) (x : Meetings), (Map.keys x.meetings).Nodup →
      (Map.keys (runCalls x cs).meetings).Nodup := by
    intro cs
    induction cs with
    | nil => intro x hx; exact hx
    | cons c rest ih => intro x hx; exact ih _ (primaryNodup_applyCall x c hx)
  exact gen cs _ (by simp [NewMeetings, Map.keys])

theorem mem_foldl_Users_Add (ps : List String) (acc : Users) (x : String) :
    x ∈ ps.foldl Users.Add acc ↔ x ∈ acc ∨ x ∈ ps := by
  induction ps generalizing acc with
  | nil => simp
  | cons a rest ih =>
    simp only [List.foldl_cons, ih, Meetings.mem_Users_Add, List.mem_cons]
    constructor
    · rintro ((h | h) | h)
      · exact Or.inl h
      · exact Or.inr (Or.inl h)
      · exact Or.inr (Or.inr h)
    · rintro (h | h | h)
      · exact Or.inl (Or.inl h)
      · exact Or.inl (Or.inr h)
      · exact Or.inr h

theorem resolveParticipants_known (users : Users) (ps : List String) (acc : Users)
    (h : ∀ p ∈ ps, p ∈ users) :
    resolveParticipants users ps acc = some (ps.foldl Users.Add acc) := by
  induction ps generalizing acc with
  | nil => rfl
  | cons a rest ih =>
    have ha : a ∈ users := h a (List.mem_cons_self _ _)
    unfold resolveParticipants
    simp only [Users.LookupUser, ha, if_true, List.foldl_cons]
    exact ih _ (fun p hp => h p (List.mem_cons_of_mem _ hp))

theorem fromSerialized_toSerialized (YMDFormat : Int → String) (YMDParse : String → Int)
    (M : Meeting) (users : Users) (hH : M.Host ∈ users) (hP : ∀ u ∈ M.Participants, u ∈ users) :
    fromSerialized YMDParse (toSerialized YMDFormat M) users =
      some { Title := M.Title, Host := M.Host,
             Participants := M.Participants.foldl Users.Add NewUsers,
             Start := YMDParse (YMDFormat M.Start), End := YMDParse (YMDFormat M.End) } := by
  unfold fromSerialized toSerialized
  simp only [Users.LookupUser, hH, if_true, resolveParticipants_known users _ _ hP]

theorem fromSerialized_title (YMDParse : String → Int) (r : meetingSerialized) (users : Users)
    (m : Meeting) (h : fromSerialized YMDParse r users = some m) : m.Title = r.Title := by
  unfold fromSerialized at h
  simp only at h
  split at h
  · cases h
  · split at h
    · cases h
    · cases h; rfl

theorem deserializeLoop_spec (YMDParse : String → Int) (users : Users)
    (rs : List meetingSerialized) (acc : Meetings)
    (hok : ∀ r ∈ rs, ∃ m, fromSerialized YMDParse r users = some m)
    (hn : (rs.map (fun r => r.Title)).Nodup) :
    ∃ ms2, deserializeLoop YMDParse users rs acc = some ms2 ∧
      (∀ t p M, Map.get acc.meetings t = some p → acc.deref p = some M →
        (∀ r ∈ rs, r.Title ≠ t) → Map.get ms2.meetings t = some p ∧ ms2.deref p = some M) ∧
      (∀ t, Map.get acc.meetings t = none → (∀ r ∈ rs, r.Title ≠ t) →
        Map.get ms2.meetings t = none) ∧
      (∀ r ∈ rs, ∃ p2 M2, Map.get ms2.meetings r.Title = some p2 ∧ ms2.deref p2 = some M2 ∧
        fromSerialized YMDParse r users = some M2) := by
  induction rs generalizing acc with
  | nil =>
    refine ⟨acc, rfl, ?_, ?_, ?_⟩
    · intro t p M hg hd _; exact ⟨hg, hd⟩
    · intro t hg _; exact hg
    · intro r hr; cases hr
  | cons r rest ih =>
    obtain ⟨m, hm⟩ := hok r (List.mem_cons_self _ _)
    have hmt : m.Title = r.Title := fromSerialized_title YMDParse r users m hm
    simp only [List.map_cons, List.nodup_cons, List.mem_map, not_exists, not_and] at hn
    obtain ⟨ms2, hl, hpres, hnone, hrest⟩ :=
      ih (({ acc with heap := acc.heap ++ [m] } : Meetings).host acc.heap.length m)
        (fun r2 hr2 => hok r2 (List.mem_cons_of_mem _ hr2)) hn.2
    refine ⟨ms2, ?_, ?_, ?_, ?_⟩
    · unfold deserializeLoop
      simp only [hm]
      exact hl
    · intro t p M hg hd hne
      have ht : ¬ t = m.Title := by
        rw [hmt]; exact fun e => hne r (List.mem_cons_self _ _) e.symm
      apply hpres t p M
      · rw [Meetings.meetings_host, Map.get_set]
        simp only [ht, if_false]
        exact hg
      · rw [Meetings.deref_host, Meetings.deref_alloc]
        have hlt := Meetings.deref_lt acc p M hd
        simp only [Nat.ne_of_lt hlt, if_false]
        exact hd
      · exact fun r2 hr2 => hne r2 (List.mem_cons_of_mem _ hr2)
    · intro t hg hne
      have ht : ¬ t = m.Title := by
        rw [hmt]; exact fun e => hne r (List.mem_cons_self _ _) e.symm
      apply hnone t
      · rw [Meetings.meetings_host, Map.get_set]
        simp only [ht, if_false]
        exact hg
      · exact fun r2 hr2 => hne r2 (List.mem_cons_of_mem _ hr2)
    · intro r2 hr2
      rcases List.mem_cons.mp hr2 with e | e
      · subst e
        have h1 := hpres r2.Title acc.heap.length m
          (by rw [Meetings.meetings_host, Map.get_set, hmt]; simp)
          (by rw [Meetings.deref_host, Meetings.deref_alloc]; simp)
          (fun r3 hr3 e3 => hn.1 r3 hr3 e3)
        exact ⟨acc.heap.length, m, h1.1, h1.2, hm⟩
      · exact hrest r2 e

theorem Serialize_mem (YMDFormat : Int → String) (ms : Meetings) (r : meetingSerialized) :
    r ∈ ms.Serialize YMDFormat ↔
      ∃ e ∈ ms.meetings, ∃ M, ms.deref e.2 = some M ∧ toSerialized YMDFormat M = r := by
  unfold Meetings.Serialize
  rw [List.mem_filterMap]
  constructor
  · rintro ⟨e, he, hr⟩
    cases hd : ms.deref e.2 with
    | none => rw [hd] at hr; cases hr
    | some M =>
      rw [hd] at hr
      exact ⟨e, he, M, hd, Option.some.inj hr⟩
  · rintro ⟨e, he, M, hd, hr⟩
    exact ⟨e, he, by rw [hd, ← hr]; rfl⟩

theorem Serialize_titles (YMDFormat : Int → String) (heap : List Meeting) (l : Map Nat)
    (h : ∀ e ∈ l, ∃ M, heap[e.2]? = some M ∧ M.Title = e.1) :
    (l.filterMap (fun e => (heap[e.2]?).map (toSerialized YMDFormat))).map (fun r => r.Title)
      = Map.keys l := by
  induction l with
  | nil => rfl
  | cons e rest ih =>
    obtain ⟨M, hM, hMt⟩ := h e (List.mem_cons_self _ _)
    have ih2 := ih (fun e2 he2 => h e2 (List.mem_cons_of_mem _ he2))
    simp only [List.filterMap_cons, hM, Option.map_some', List.map_cons, Map.keys]
    unfold Map.keys at ih2
    rw [ih2]
    simp [toSerialized, hMt]

theorem primaryWellFormed_of_reachable (ms : Meetings) (h : Reachable ms) :
    PrimaryWellFormed ms :=
  ⟨primaryNodup_of_reachable ms h, (consistent_of_reachable ms h).prim⟩

theorem primaryWellFormed_host (ms : Meetings) (m : Meeting) (h : PrimaryWellFormed ms) :
    PrimaryWellFormed (({ ms with heap := ms.heap ++ [m] } : Meetings).host ms.heap.length m) where
  nodup := by
    rw [Meetings.meetings_host]
    exact Map.keys_set_nodup _ _ _ h.nodup
  prim := by
    intro t p hg
    rw [Meetings.meetings_host, Map.get_set] at hg
    simp only [Meetings.deref_host, Meetings.deref_alloc]
    split_ifs at hg with ht
    · cases hg
      exact ⟨m, by simp, ht.symm⟩
    · obtain ⟨x, hx, hxt⟩ := h.prim t p hg
      have hlt := Meetings.deref_lt ms p x hx
      exact ⟨x, by simp [Nat.ne_of_lt hlt, hx], hxt⟩

theorem primaryWellFormed_deserializeLoop (YMDParse : String → Int) (users : Users)
    (rs : List meetingSerialized) (acc ms2 : Meetings) (h : PrimaryWellFormed acc)
    (hl : deserializeLoop YMDParse users rs acc = some ms2) : PrimaryWellFormed ms2 := by
  induction rs generalizing acc with
  | nil =>
    unfold deserializeLoop at hl
    cases hl
    exact h
  | cons r rest ih =>
    unfold deserializeLoop at hl
    cases hm : fromSerialized YMDParse r users with
    | none => simp only [hm] at hl; cases hl
    | some m =>
      simp only [hm] at hl
      exact ih _ (primaryWellFormed_host acc m h) hl

theorem primaryWellFormed_DeserializeMeeting (YMDParse : String → Int) (users : Users)
    (rs : List meetingSerialized) (ms2 : Meetings)
    (hl : DeserializeMeeting YMDParse rs users = some ms2) : PrimaryWellFormed ms2 :=
  primaryWellFormed_deserializeLoop YMDParse users rs NewMeetings ms2
    ⟨by simp [NewMeetings, Map.keys], by intro t p h; simp [NewMeetings, Map.get] at h⟩ hl

/-- C16. Snapshot round trip.  For a registry with a well-formed primary
index (every reachable registry, every deserialized registry) whose hosts
and participants are all in the directory, `DeserializeMeeting` applied to the
records written by `Serialize` returns a registry with the same titles in
which every title leads to a meeting with the same host, the same set of
participants, and `Start` and `End` equal to `YMDParse` of `YMDFormat` of the
original ones; and `fromSerialized` of `toSerialized` of a meeting is that
meeting up to the same change of `Start` and `End`. -/
theorem snapshot_round_trip (YMDFormat : Int → String) (YMDParse : String → Int)
    (ms : Meetings) (hc : PrimaryWellFormed ms) (users : Users)
    (hdir : ∀ t p M, ms.Lookup t = some p → ms.deref p = some M →
      M.Host ∈ users ∧ ∀ u ∈ M.Participants, u ∈ users) :
    (∃ ms2, DeserializeMeeting YMDParse (ms.Serialize YMDFormat) users = some ms2 ∧
      (∀ t, ms2.Has t = ms.Has t) ∧
      (∀ t p M, ms.Lookup t = some p → ms.deref p = some M →
        ∃ p2 M2, ms2.Lookup t = some p2 ∧ ms2.deref p2 = some M2 ∧
          M2.Title = t ∧ M2.Host = M.Host ∧
          (∀ x, x ∈ M2.Participants ↔ x ∈ M.Participants) ∧
          M2.Start = YMDParse (YMDFormat M.Start) ∧
          M2.End = YMDParse (YMDFormat M.End))) ∧
    (∀ M : Meeting, M.Host ∈ users → (∀ u ∈ M.Participants, u ∈ users) →
      ∃ M2, fromSerialized YMDParse (toSerialized YMDFormat M) users = some M2 ∧
        M2.Title = M.Title ∧ M2.Host = M.Host ∧
        (∀ x, x ∈ M2.Participants ↔ x ∈ M.Participants) ∧
        M2.Start = YMDParse (YMDFormat M.Start) ∧
        M2.End = YMDParse (YMDFormat M.End)) := by
  have hnd := hc.nodup
  have hrec : ∀ M : Meeting, M.Host ∈ users → (∀ u ∈ M.Participants, u ∈ users) →
      ∃ M2, fromSerialized YMDParse (toSerialized YMDFormat M) users = some M2 ∧
        M2.Title = M.Title ∧ M2.Host = M.Host ∧
        (∀ x, x ∈ M2.Participants ↔ x ∈ M.Participants) ∧
        M2.Start = YMDParse (YMDFormat M.Start) ∧
        M2.End = YMDParse (YMDFormat M.End) := by
    intro M hH hP
    refine ⟨_, fromSerialized_toSerialized YMDFormat YMDParse M users hH hP, rfl, rfl, ?_,
      rfl, rfl⟩
    intro x
    show x ∈ M.Participants.foldl Users.Add NewUsers ↔ x ∈ M.Participants
    rw [mem_foldl_Users_Add]
    simp [NewUsers]
  refine ⟨?_, hrec⟩
  have hentry : ∀ e ∈ ms.meetings, ∃ M, ms.deref e.2 = some M ∧ M.Title = e.1 := by
    intro e he
    exact hc.prim e.1 e.2 (Map.get_eq_some_of_mem _ _ _ hnd he)
  have hok : ∀ r ∈ ms.Serialize YMDFormat, ∃ m, fromSerialized YMDParse r users = some m := by
    intro r hr
    obtain ⟨e, he, M, hd, hrM⟩ := (Serialize_mem YMDFormat ms r).mp hr
    have hg := Map.get_eq_some_of_mem _ _ _ hnd he
    obtain ⟨hH, hP⟩ := hdir e.1 e.2 M hg hd
    obtain ⟨M2, hM2, _⟩ := hrec M hH hP
    exact ⟨M2, by rw [← hrM]; exact hM2⟩
  have htitles : (ms.Serialize YMDFormat).map (fun r => r.Title) = Map.keys ms.meetings :=
    Serialize_titles YMDFormat ms.heap ms.meetings hentry
  obtain ⟨ms2, hl, _, hnone, hsome⟩ :=
    deserializeLoop_spec YMDParse users (ms.Serialize YMDFormat) NewMeetings hok
      (by rw [htitles]; exact hnd)
  have hfound : ∀ t p M, ms.Lookup t = some p → ms.deref p = some M →
      ∃ p2 M2, ms2.Lookup t = some p2 ∧ ms2.deref p2 = some M2 ∧
        M2.Title = t ∧ M2.Host = M.Host ∧
        (∀ x, x ∈ M2.Participants ↔ x ∈ M.Participants) ∧
        M2.Start = YMDParse (YMDFormat M.Start) ∧
        M2.End = YMDParse (YMDFormat M.End) := by
    intro t p M hg hd
    have hMt : M.Title = t := by
      obtain ⟨y, hy, hyt⟩ := hc.prim t p hg
      rw [hd] at hy; cases hy; exact hyt
    have hmem : toSerialized YMDFormat M ∈ ms.Serialize YMDFormat :=
      (Serialize_mem YMDFormat ms _).mpr ⟨(t, p), Map.mem_of_get_eq_some _ _ _ hg, M, hd, rfl⟩
    obtain ⟨p2, M2, hg2, hd2, hf2⟩ := hsome _ hmem
    obtain ⟨hH, hP⟩ := hdir t p M hg hd
    obtain ⟨M3, hM3, h3t, h3h, h3p, h3s, h3e⟩ := hrec M hH hP
    rw [hM3] at hf2
    cases hf2
    have hg3 : Map.get ms2.meetings t = some p2 := by
      have e : (toSerialized YMDFormat M).Title = t := hMt
      rw [e] at hg2; exact hg2
    exact ⟨p2, _, hg3, hd2, h3t.trans hMt, h3h, h3p, h3s, h3e⟩
  refine ⟨ms2, hl, ?_, hfound⟩
  intro t
  cases hg : Map.get ms.meetings t with
  | none =>
    have hne : ∀ r ∈ ms.Serialize YMDFormat, r.Title ≠ t := by
      intro r hr e
      have : t ∈ (ms.Serialize YMDFormat).map (fun r => r.Title) :=
        List.mem_map.mpr ⟨r, hr, e⟩
      rw [htitles, Map.mem_keys_iff] at this
      obtain ⟨v, hv⟩ := this
      rw [hg] at hv
      cases hv
    have h2 := hnone t rfl hne
    unfold Meetings.Has
    rw [h2, hg]
  | some p =>
    obtain ⟨M, hd, _⟩ := hc.prim t p hg
    obtain ⟨p2, M2, hg2, _⟩ := hfound t p M hg hd
    have hg3 : Map.get ms2.meetings t = some p2 := hg2
    unfold Meetings.Has
    rw [hg3, hg]
    rfl

/-- Witness for C16: a registry with one meeting, a directory with its two
users, the text of the day number as `YMDFormat` and the length of the text
as `YMDParse`. -/
theorem snapshot_round_trip_witness :
    PrimaryWellFormed
      (runCalls NewMeetings [Call.Host ⟨"standup", "hana", ["hana", "pat"], 0, 10⟩]) ∧
    (∀ t p M,
      (runCalls NewMeetings [Call.Host ⟨"standup", "hana", ["hana", "pat"], 0, 10⟩]).Lookup t
        = some p →
      (runCalls NewMeetings [Call.Host ⟨"standup", "hana", ["hana", "pat"], 0, 10⟩]).deref p
        = some M →
      M.Host ∈ ["hana", "pat"] ∧ ∀ u ∈ M.Participants, u ∈ ["hana", "pat"]) ∧
    ∃ ms2, DeserializeMeeting (fun s => (s.length : Int))
        ((runCalls NewMeetings
          [Call.Host ⟨"standup", "hana", ["hana", "pat"], 0, 10⟩]).Serialize
            (fun i => toString (i / 86400))) ["hana", "pat"] = some ms2 ∧
        ms2.Has "standup" = true := by
  have hdir : ∀ t p M,
      (runCalls NewMeetings [Call.Host ⟨"standup", "hana", ["hana", "pat"], 0, 10⟩]).Lookup t
        = some p →
      (runCalls NewMeetings [Call.Host ⟨"standup", "hana", ["hana", "pat"], 0, 10⟩]).deref p
        = some M →
      M.Host ∈ ["hana", "pat"] ∧ ∀ u ∈ M.Participants, u ∈ ["hana", "pat"] := by
    intro t p M hl hd
    have hX : (runCalls NewMeetings
        [Call.Host ⟨"standup", "hana", ["hana", "pat"], 0, 10⟩]).meetings = [("standup", 0)] := by
      decide
    unfold Meetings.Lookup at hl
    rw [hX] at hl
    have hp : p = 0 := by
      simp only [Map.get] at hl
      split_ifs at hl
      exact (Option.some.inj hl).symm
    subst hp
    have h0 : (runCalls NewMeetings
        [Call.Host ⟨"standup", "hana", ["hana", "pat"], 0, 10⟩]).deref 0 =
        some ⟨"standup", "hana", ["hana", "pat"], 0, 10⟩ := by decide
    rw [h0] at hd
    cases hd
    exact ⟨by decide, by decide⟩
  refine ⟨primaryWellFormed_of_reachable _ ⟨_, rfl⟩, hdir, ?_⟩
  obtain ⟨ms2, hl, hHas, _⟩ :=
    (snapshot_round_trip (fun i => toString (i / 86400)) (fun s => (s.length : Int))
      (runCalls NewMeetings [Call.Host ⟨"standup", "hana", ["hana", "pat"], 0, 10⟩])
      (primaryWellFormed_of_reachable _ ⟨_, rfl⟩) ["hana", "pat"] hdir).1
  refine ⟨ms2, hl, ?_⟩
  rw [hHas]
  decide

end Agenda
